import Mathlib

set_option maxRecDepth 20000

/-!
Verification development for the pyBEEP potentiostat driver.

Shallow embedding of the acquisition engine of `src/pyBEEP`:
the register word packing (`utils.py`), the busy-delay gate and error
counters of the acquisition loops (`controller.py`), the potentiostatic
and galvanostatic cadenced loops, the streaming down-sampling logger
(`logger.py`), the device command layer (`device.py`) and the waveform
generators (`driver/measurement_modes/waveforms_pot.py`,
`waveforms_gal.py`, `measurement_modes/waveforms_ocp.py`).

Numeric modelling conventions: Python/numpy floats are embedded as exact
rationals (ℚ); machine integers and monotonic-clock nanosecond values as
`Int`; register words as `Nat` reduced mod 2^16 where the code casts to
uint16.  Fallible numpy calls (negative lengths, `np.concatenate([])`,
reshape of an odd-sized buffer) are modelled with `Option`, `none`
standing for the raised `ValueError`.
-/

namespace PyBEEP

/-- Model: `POINT_INTERVAL = 0.00036` from `utils/constants.py`, as an exact rational. -/
def POINT_INTERVAL : ℚ := 9 / 25000

/-- Model: `BUSSY_DLAY_NS = 400e6` from `utils/constants.py` (nanoseconds). -/
def BUSSY_DLAY_NS : Int := 400000000

/-! ### Word packing (`utils.py`, lines 65-72)

A 32-bit float is identified with its 32-bit pattern `b : Nat`, `b < 2^32`.
`np.array([v], dtype=np.float32).tobytes(order='C')` on a little-endian
host lays out the four bytes least significant first, so viewing them as
two uint16 words yields `[b % 2^16, b / 2^16]`. -/

/-- Model: `float_to_uint16_list` (`utils.py:65`): the two u16 words of the raw
bit pattern of one float32, native (little-endian) byte order. -/
def float_to_uint16_list (b : Nat) : List Nat :=
  [b % 65536, b / 65536 % 65536]

/-- The `np.frombuffer(adc_bytes, np.float32)` step of
`convert_uint16_to_float32`: consecutive word pairs are reinterpreted as
float32 bit patterns.  Defined on an even-length word list. -/
def pairWords : List Nat → List Nat
  | w0 :: w1 :: rest => (w0 + 65536 * w1) :: pairWords rest
  | _ => []

/-- Model: `np.frombuffer` raises `ValueError` when the byte count is not a
multiple of the item size: an odd number of u16 words cannot be viewed as
float32 values.  The `.astype(np.uint16)` cast reduces each word mod 2^16. -/
def wordsToFloat32 (ws : List Nat) : Option (List Nat) :=
  let ws' := ws.map (fun w => w % 65536)
  if ws'.length % 2 = 0 then some (pairWords ws') else none

/-- The final `np.reshape(rd_list, (-1, 2))` of `convert_uint16_to_float32`:
floats are paired into `(current, potential)` rows; an odd float count
raises `ValueError`. -/
def reshapeRows : List Nat → Option (List (Nat × Nat))
  | [] => some []
  | f0 :: f1 :: rest => (reshapeRows rest).map (fun t => (f0, f1) :: t)
  | _ => none

/-- Model: `convert_uint16_to_float32` (`utils.py:68`): uint16 words → float32
bit patterns → rows of two floats. -/
def convert_uint16_to_float32 (rd_data : List Nat) : Option (List (Nat × Nat)) :=
  (wordsToFloat32 rd_data).bind reshapeRows

/-! ### Busy-delay gate (`controller.py:377` and `controller.py:604`)

The source guards each attempt with
`if (st - params["rd_dly_st"] * 0) > params["busy_dly_ns"]` (and the same
shape with `wr_dly_st` on the write path).  `st` is `monotonic_ns()` taken
at the top of the loop iteration; the recorded failure timestamp is
multiplied by `0` exactly as written. -/

/-- Read-attempt gate, `controller.py:377`. -/
def read_gate (st rd_dly_st busy_dly_ns : Int) : Bool :=
  decide (st - rd_dly_st * 0 > busy_dly_ns)

/-- Write-attempt gate, `controller.py:604`. -/
def write_gate (st wr_dly_st busy_dly_ns : Int) : Bool :=
  decide (st - wr_dly_st * 0 > busy_dly_ns)

/-! ### Per-channel error counter (`controller.py:382-391`, `609-616`)

On a failed attempt the channel's error counter is incremented and the
loop raises as soon as the incremented counter exceeds the channel
ceiling (`> 10` for writes, `> 16` for reads).  A successful write sets
`wr_err_cnt = 0` (line 606); a successful read with data sets
`rd_err_cnt = 0` at the call site (lines 423, 507, 624).

`fatalAt ceiling cnt outcomes` runs the counter over a list of attempt
outcomes (`true` = success) starting from counter value `cnt` and returns
the 0-based index of the attempt at which the fatal error is raised, or
`none` if the trace completes without exhausting the channel. -/
def fatalAt (ceiling : Nat) : Nat → List Bool → Option Nat
  | _, [] => none
  | _, true :: rest => (fatalAt ceiling 0 rest).map (fun j => j + 1)
  | cnt, false :: rest =>
      if ceiling < cnt + 1 then some 0
      else (fatalAt ceiling (cnt + 1) rest).map (fun j => j + 1)

/-! ### Device command layer (`device.py:13-34`) -/

/-- Faults the modbus transport can raise out of `write_registers`:
`minimalmodbus.SlaveReportedException` or any other transport error. -/
inductive ModbusFault
  | slaveReported
  | otherFault
deriving DecidableEq

/-- Observable behaviour of `PotentiostatDevice.send_command` towards its
caller. -/
inductive SendResult
  | ok
  | processExit
  | raised (e : ModbusFault)
deriving DecidableEq

/-- Model: `PotentiostatDevice.send_command` (`device.py:13`): the register write
is wrapped in `try/except minimalmodbus.SlaveReportedException`; that
fault is logged at debug level and answered with `exit()`, every other
fault propagates.  `outcome` is what the underlying `write_registers`
does (`none` = succeeds). -/
def send_command (outcome : Option ModbusFault) : SendResult :=
  match outcome with
  | none => SendResult.ok
  | some ModbusFault.slaveReported => SendResult.processExit
  | some ModbusFault.otherFault => SendResult.raised ModbusFault.otherFault

/-! ### Potentiostatic acquisition loop (`_read_write_data_pid_inactive`,
`controller.py:523-640`) and `_read_operation` (`controller.py:370-391`)

The mutable `params` dict fields used by the loop are carried in
`PotState`.  Device behaviour is an oracle: for each loop iteration a
`PotOutcome` fixes the `monotonic_ns()` value `st` taken at the top of
the iteration, whether the chunk write succeeds, and the two read
outcomes. -/

/-- The fields of the `params` dict plus the local loop variables `i` and
`post_read_attempts`. -/
structure PotState where
  i : Nat
  wr_tx_reg : Nat
  rd_tx_reg : Nat
  wr_err_cnt : Nat
  rd_err_cnt : Nat
  wr_dly_st : Int
  rd_dly_st : Int
  post_read_attempts : Nat
deriving DecidableEq, Repr

/-- Initial state: `params` starts with all counters zero (`controller.py:566`). -/
def potInit : PotState :=
  { i := 0, wr_tx_reg := 0, rd_tx_reg := 0, wr_err_cnt := 0, rd_err_cnt := 0
    wr_dly_st := 0, rd_dly_st := 0, post_read_attempts := 0 }

/-- Outcome of one `self.device.read_data` attempt: `ok = true` means the
call returns `words` register values, `ok = false` means it raises;
`failNs` is the `monotonic_ns()` recorded at the failure (line 384). -/
structure ReadOutcome where
  ok : Bool
  words : Nat
  failNs : Int

/-- What `_read_operation` leaves behind: the data it returns (`none` both
when the gate skips the attempt and when the attempt raises), the updated
`rd_dly_st` and `rd_err_cnt`, whether the attempt was issued at all, and
whether the error ceiling was exceeded (the `raise` at line 390). -/
structure RdResult where
  data : Option Nat
  dly : Int
  err : Nat
  attempted : Bool
  fatal : Bool

/-- Model: `_read_operation` (`controller.py:370-391`). -/
def read_operation (st busy dly : Int) (err : Nat) (o : ReadOutcome) : RdResult :=
  if read_gate st dly busy then
    if o.ok then ⟨some o.words, dly, err, true, false⟩
    else ⟨none, o.failNs, err + 1, true, decide (16 < err + 1)⟩
  else ⟨none, dly, err, false, false⟩

/-- The caller's handling of `_read_operation`'s result
(`controller.py:619-624`): `params` keeps the dly/err mutations; if data
came back (a nonempty word list) it is enqueued, `rd_tx_reg` grows by
`len(rd_data)` and `rd_err_cnt` resets to zero. -/
def applyRead (s : PotState) (r : RdResult) : PotState :=
  let s' := { s with rd_dly_st := r.dly, rd_err_cnt := r.err }
  match r.data with
  | some k => if k ≠ 0 then { s' with rd_tx_reg := s'.rd_tx_reg + k, rd_err_cnt := 0 } else s'
  | none => s'

/-- Oracle for one iteration of the cadenced while loop. -/
structure PotOutcome where
  st : Int
  wrOk : Bool
  wrFailNs : Int
  rd1 : ReadOutcome
  rd2 : ReadOutcome

/-- Observable device attempts of one iteration. -/
inductive Ev
  | wr
  | rd
deriving DecidableEq, Repr

/-- Loop guard (`controller.py:597-599`):
`(post_read_attempts < 3) or ((rd_tx_reg / wr_tx_reg / 2) < 1.0)`.
The division is exact rational division on the embedded counters. -/
def potGuard (s : PotState) : Bool :=
  decide (s.post_read_attempts < 3) ||
    decide ((s.rd_tx_reg : ℚ) / (s.wr_tx_reg : ℚ) / 2 < 1)

/-- Write phase of one iteration (`controller.py:601-616`): only while
stimulus words remain (`i < n_items`); gated; on success the error
counter clears and `wr_tx_reg`, `i` advance by `n_register`; on failure
the timestamp and counter update and the ceiling `> 10` may fire (third
component `true`). -/
def writePhase (n_items n_register : Nat) (busy : Int) (s : PotState) (o : PotOutcome) :
    List Ev × PotState × Bool :=
  if s.i < n_items then
    if write_gate o.st s.wr_dly_st busy then
      if o.wrOk then
        ([Ev.wr],
         { s with wr_err_cnt := 0, wr_tx_reg := s.wr_tx_reg + n_register, i := s.i + n_register },
         false)
      else
        ([Ev.wr],
         { s with wr_dly_st := o.wrFailNs, wr_err_cnt := s.wr_err_cnt + 1 },
         decide (10 < s.wr_err_cnt + 1))
    else ([], s, false)
  else ([], s, false)

/-- One iteration of the cadenced while loop body (`controller.py:600-626`):
write phase, then exactly two `_read_operation` calls sharing the same
`st`, then the `post_read_attempts` bump once `i >= n_items`.  Returns
the attempts issued and `none` when a fatal `raise` aborts the thread. -/
def potIter (n_items n_register : Nat) (busy : Int) (s : PotState) (o : PotOutcome) :
    List Ev × Option PotState :=
  let wp := writePhase n_items n_register busy s o
  let ev := wp.1
  let s1 := wp.2.1
  if wp.2.2 then (ev, none) else
  let r1 := read_operation o.st busy s1.rd_dly_st s1.rd_err_cnt o.rd1
  let ev1 := ev ++ (if r1.attempted then [Ev.rd] else [])
  if r1.fatal then (ev1, none) else
  let s2 := applyRead s1 r1
  let r2 := read_operation o.st busy s2.rd_dly_st s2.rd_err_cnt o.rd2
  let ev2 := ev1 ++ (if r2.attempted then [Ev.rd] else [])
  if r2.fatal then (ev2, none) else
  let s3 := applyRead s2 r2
  (ev2, some (if n_items ≤ s3.i then { s3 with post_read_attempts := s3.post_read_attempts + 1 } else s3))

/-- The cadenced while loop (`controller.py:597-626`), fuelled.  `k`
indexes the oracle; `none` means the fuel ran out or a fatal error was
raised, `some s` that the guard became false and the loop completed. -/
def potRun (n_items n_register : Nat) (busy : Int) (oracle : Nat → PotOutcome) :
    Nat → Nat → PotState → Option PotState
  | 0, _, _ => none
  | fuel + 1, k, s =>
    if potGuard s then
      match (potIter n_items n_register busy s (oracle k)).2 with
      | none => none
      | some s' => potRun n_items n_register busy oracle fuel (k + 1) s'
    else some s

/-! ### Galvanostatic acquisition loop (`_read_write_data_pid_active`,
`controller.py:434-521`)

For each `(current, duration, length)` triple of the waveform the PID
target is written once, then the inner loop
`while params["rd_tx_reg"] < length` reads.  `params["rd_tx_reg"]` is
created once before the segment loop (`controller.py:469-479`) and never
reset between segments.  The model takes an always-succeeding link whose
every read enqueues `m` samples (`rd_tx_reg += len(rd_list)`, line 506). -/

/-- Inner read loop of one segment: reads until `rd_tx_reg < length`
fails, each read adding `m` samples.  Returns
`(samples collected during this segment, final rd_tx_reg)`; `none` when
the fuel runs out. -/
def galReadLoop (m : Nat) : Nat → Nat → Nat → Option (Nat × Nat)
  | 0, _, _ => none
  | fuel + 1, rd_tx, length =>
    if rd_tx < length then
      match galReadLoop m fuel (rd_tx + m) length with
      | some (c, r) => some (c + m, r)
      | none => none
    else some (0, rd_tx)

/-- Segment loop of `_read_write_data_pid_active` (`controller.py:483-507`):
for each entry of `length_steps`, one PID-target write then the read
loop.  Produces per segment the pair
`(PID-target writes issued for the segment, samples collected for the
segment)`, threading the cumulative `rd_tx_reg` through. -/
def galSegments (m fuel : Nat) : List Nat → Nat → Option (List (Nat × Nat))
  | [], _ => some []
  | length :: rest, rd_tx =>
    match galReadLoop m fuel rd_tx length with
    | some (c, rd_tx') =>
      match galSegments m fuel rest rd_tx' with
      | some tl => some ((1, c) :: tl)
      | none => none
    | none => none

/-- Model: `_read_write_data_pid_active` against an always-succeeding link:
`rd_tx_reg` starts at 0 (`controller.py:477`). -/
def read_write_data_pid_active (m fuel : Nat) (length_steps : List Nat) :
    Option (List (Nat × Nat)) :=
  galSegments m fuel length_steps 0

/-! ### Data logger (`logger.py`)

Measured rows are `(current, potential)` pairs (`logger.py:101`).  The
waveform metadata relevant to a potentiostatic run is its `time` and
`applied_potential` arrays; the enriched row layout produced by
`_save_batch` is `[Time, Potential, Current, Exp, AppliedPotential]`.
(`cycle`/`step` columns, when a waveform carries them, go through the
identical slicing and averaging path.) -/

/-- A measured sample: `(current, potential)`. -/
def RowQ : Type := ℚ × ℚ

instance : DecidableEq RowQ := instDecidableEqProd

/-- Waveform metadata arrays seen by the logger. -/
structure LoggerWaveform where
  time : List ℚ
  applied : List ℚ

/-- Length of the Python slice `arr[data_idx : data_idx + n]` of an array
of length `len`. -/
def sliceLen (len data_idx n : Nat) : Nat :=
  min n (len - data_idx)

/-- Model: `min_len` of `_save_batch` (`logger.py:114-119`): measured rows and
every metadata slice are truncated to the shortest of them. -/
def minLen (w : LoggerWaveform) (data_idx n : Nat) : Nat :=
  min n (min (sliceLen w.time.length data_idx n) (sliceLen w.applied.length data_idx n))

/-- One enriched row (`logger.py:122-146`): `[Time, Potential, Current,
Exp, AppliedPotential]` for the sample at offset `idx` of the waveform. -/
def enrichRow (w : LoggerWaveform) (idx : Nat) (r : RowQ) : List ℚ :=
  [w.time.getD idx 0, r.2, r.1, 1, w.applied.getD idx 0]

/-- Enrich consecutive rows starting at waveform offset `idx`. -/
def enrichFrom (w : LoggerWaveform) (idx : Nat) : List RowQ → List (List ℚ)
  | [] => []
  | r :: rs => enrichRow w idx r :: enrichFrom w (idx + 1) rs

/-- Model: `enriched_buffer` of `_save_batch`: the buffer truncated to `min_len`
and enriched at offsets `data_idx, data_idx+1, …`. -/
def enrich (w : LoggerWaveform) (buffer : List RowQ) (data_idx : Nat) : List (List ℚ) :=
  enrichFrom w data_idx (buffer.take (minLen w data_idx buffer.length))

/-- Entrywise sum of same-length rows (`np.ndarray` column sums). -/
def sumRows : List (List ℚ) → List ℚ
  | [] => []
  | [r] => r
  | r :: rs => List.zipWith (fun a b => a + b) r (sumRows rs)

/-- Model: `chunk.mean(axis=0)` followed by `avg[0] = chunk[0, 0]`
(`logger.py:160-162`): the column-wise arithmetic mean of a group, with
the time column replaced by the first row's time. -/
def groupAvg (rows : List (List ℚ)) : List ℚ :=
  match rows with
  | [] => []
  | r :: rs => (((sumRows (r :: rs)).map (fun q => q / ((rs.length + 1 : Nat) : ℚ))).set 0 (r.headD 0))

/-- The complete groups taken by the `while len(enriched_buffer) - idx >=
factor` loop (`logger.py:158-163`): successive chunks of `f` rows. -/
def chunksExact (f : Nat) (l : List (List ℚ)) : List (List (List ℚ)) :=
  if _h : 0 < f ∧ f ≤ l.length then
    l.take f :: chunksExact f (l.drop f)
  else []
termination_by l.length
decreasing_by
  simp only [List.length_drop]
  omega

/-- Complete groups plus the trailing partial group when nonempty: what
`_save_batch` emits under `flush_all=True`. -/
def chunksAll (f : Nat) (l : List (List ℚ)) : List (List (List ℚ)) :=
  let rem := l.drop (f * (chunksExact f l).length)
  chunksExact f l ++ (if rem = [] then [] else [rem])

/-- Model: `_save_batch` (`logger.py:77-177`), header row aside: returns the
rows written, the rows kept buffered, and the updated `data_idx`
(`return buffer[idx:], new_idx - (len(enriched_buffer) - idx)`). -/
def save_batch (f : Nat) (w : LoggerWaveform) (buffer : List RowQ) (data_idx : Nat)
    (flush_all : Bool) : List (List ℚ) × List RowQ × Nat :=
  let n := buffer.length
  let new_idx := data_idx + n
  let enriched := enrich w buffer data_idx
  if f < 2 then (enriched, [], new_idx)
  else
    let full := chunksExact f enriched
    let idx0 := f * full.length
    let rem := enriched.drop idx0
    let idxF := if flush_all ∧ rem ≠ [] then enriched.length else idx0
    let emitted := full.map groupAvg ++ (if flush_all ∧ rem ≠ [] then [groupAvg rem] else [])
    (emitted, buffer.drop idxF, new_idx - (enriched.length - idxF))

/-- The consumer loop of `DataLogger.run` (`logger.py:53-75`) after the
sentinel arrives is the final `if buffer:` flush; before it, each batch
extends the buffer and a flush happens when
`len(buffer) > 20 and len(buffer) > reducing_factor`. -/
def loggerRunAux (f : Nat) (w : LoggerWaveform) : List (List RowQ) → List RowQ → Nat → List (List ℚ)
  | [], buffer, data_idx =>
    if buffer = [] then [] else (save_batch f w buffer data_idx true).1
  | b :: bs, buffer, data_idx =>
    let buffer' := buffer ++ b
    if 20 < buffer'.length ∧ f < buffer'.length then
      let r := save_batch f w buffer' data_idx false
      r.1 ++ loggerRunAux f w bs r.2.1 r.2.2
    else loggerRunAux f w bs buffer' data_idx

/-- Model: `DataLogger.run` on a finite stream of batches followed by the `None`
sentinel: every row the logger writes, in order. -/
def loggerRunBatches (f : Nat) (w : LoggerWaveform) (batches : List (List RowQ)) : List (List ℚ) :=
  loggerRunAux f w batches [] 0

/-! ### `_run_measurement` (`controller.py:253-282`)

The acquisition thread enqueues its batches and terminates, normally or
by an uncaught exception; `write_thread.flatten()` returns either way, and
the `finally:` block enqueues the `None` sentinel exactly once and joins
the logger.  The queue contents seen by the logger are the batches (in
order) followed by the sentinel. -/

/-- How the acquisition thread can end: normal completion or an abnormal
abort (uncaught exception in the thread), in both cases after having
enqueued some batches. -/
inductive AcqOutcome
  | normal (batches : List (List RowQ))
  | abnormal (batches : List (List RowQ))

/-- The batches the acquisition thread enqueued before ending. -/
def acqBatches : AcqOutcome → List (List RowQ)
  | AcqOutcome.normal bs => bs
  | AcqOutcome.abnormal bs => bs

/-- The queue contents `_run_measurement` hands to the `DataLogger`: the
`finally:` block (`controller.py:280-282`) appends the sentinel in both
branches. -/
def run_measurement_stream : AcqOutcome → List (Option (List RowQ))
  | AcqOutcome.normal bs => bs.map some ++ [none]
  | AcqOutcome.abnormal bs => bs.map some ++ [none]

/-- Model: `DataLogger.run`'s `while True: item = self.queue.get(); if item is
None: break; …` consuming an explicit queue trace.  An exhausted trace
with no sentinel means `queue.get()` blocks forever: `none`. -/
def loggerConsume (f : Nat) (w : LoggerWaveform) :
    List (Option (List RowQ)) → List RowQ → Nat → Option (List (List ℚ))
  | [], _, _ => none
  | none :: _, buffer, data_idx =>
    some (if buffer = [] then [] else (save_batch f w buffer data_idx true).1)
  | some b :: rest, buffer, data_idx =>
    let buffer' := buffer ++ b
    if 20 < buffer'.length ∧ f < buffer'.length then
      let r := save_batch f w buffer' data_idx false
      (loggerConsume f w rest r.2.1 r.2.2).map (fun out => r.1 ++ out)
    else loggerConsume f w rest buffer' data_idx

/-! ### Waveform generators
(`driver/measurement_modes/waveforms_pot.py`, `waveforms_gal.py`,
`measurement_modes/waveforms_ocp.py`)

Lengths are computed as `int(duration / POINT_INTERVAL)`; Python `int()`
truncates toward zero.  A negative length makes `np.full` / `np.repeat` /
`np.linspace` raise `ValueError`: modelled as `none`.  So is
`np.concatenate([])` on an empty segment list.  (For `scan_rate = 0`
Python's float division produces `inf`/`nan` and `int()` raises; the
total rational division yields the zero-length waveform instead —
either way no waveform violating the stated invariants is produced.) -/

/-- Python `int()` on a rational: truncation toward zero. -/
def pyTrunc (q : ℚ) : Int :=
  if 0 ≤ q then ⌊q⌋ else ⌈q⌉

/-- A numpy array length computed by `int(...)`: `ValueError` when
negative. -/
def npLen (q : ℚ) : Option Nat :=
  if pyTrunc q < 0 then none else some (pyTrunc q).toNat

/-- An `int` parameter used as a numpy length (`num_steps`): `ValueError`
when negative. -/
def npNum (n : Int) : Option Nat :=
  if n < 0 then none else some n.toNat

/-- Model: `np.arange(n) * POINT_INTERVAL`. -/
def npArangeTimes (n : Nat) : List ℚ :=
  (List.range n).map (fun (i : Nat) => (i : ℚ) * POINT_INTERVAL)

/-- Model: `np.linspace(a, b, n)`: `n` evenly spaced values including both
endpoints (`n = 1` gives `[a]`). -/
def npLinspace (a b : ℚ) : Nat → List ℚ
  | 0 => []
  | 1 => [a]
  | n + 2 => (List.range (n + 2)).map (fun (i : Nat) => a + (b - a) * (i : ℚ) / ((n + 1 : Nat) : ℚ))

/-- Model: `np.repeat(values, k)`: each element repeated `k` times, in order. -/
def npRepeat (values : List ℚ) (k : Nat) : List ℚ :=
  (values.map (fun v => List.replicate k v)).flatten

/-- Model: `PotenOutput` (`waveform_outputs.py`). -/
structure PotenOutput where
  applied_potential : List ℚ
  time : List ℚ

/-- Model: `SteppedPotenOutput`. -/
structure SteppedPotenOutput where
  applied_potential : List ℚ
  time : List ℚ
  step : List Int

/-- Model: `CyclicPotenOutput`. -/
structure CyclicPotenOutput where
  applied_potential : List ℚ
  time : List ℚ
  cycle : List Int

/-- Model: `GalvanoOutput`. -/
structure GalvanoOutput where
  applied_current : List ℚ
  time : List ℚ
  current_steps : List ℚ
  duration_steps : List ℚ
  length_steps : List Nat

/-- Model: `CyclicGalvanoOutput`. -/
structure CyclicGalvanoOutput where
  applied_current : List ℚ
  time : List ℚ
  cycle : List Int
  current_steps : List ℚ
  duration_steps : List ℚ
  length_steps : List Nat

/-- Model: `BaseOuput` (sic): the OCP waveform carries only the time array. -/
structure BaseOuput where
  time : List ℚ

/-- Model: `constant_waveform` (`waveforms_pot.py:11`). -/
def constant_waveform (potential duration : ℚ) : Option PotenOutput :=
  (npLen (duration / POINT_INTERVAL)).map (fun length =>
    { applied_potential := List.replicate length potential
      time := npArangeTimes length })

/-- Model: `potential_steps` (`waveforms_pot.py:33`): `np.concatenate` over one
constant block per requested potential. -/
def potential_steps (potentials : List ℚ) (step_duration : ℚ) : Option SteppedPotenOutput :=
  (npLen (step_duration / POINT_INTERVAL)).bind (fun length_step =>
    if potentials = [] then none
    else
      let applied := (potentials.map (fun p => List.replicate length_step p)).flatten
      some { applied_potential := applied
             time := npArangeTimes applied.length
             step := ((List.range potentials.length).map (fun (i : Nat) =>
               List.replicate length_step (i : Int))).flatten })

/-- Model: `linear_sweep` (`waveforms_pot.py:67`):
`length = int(abs(end - start) / scan_rate / POINT_INTERVAL)` then
`np.linspace(start, end, length)`. -/
def linear_sweep (start e scan_rate : ℚ) : Option PotenOutput :=
  (npLen (abs (e - start) / scan_rate / POINT_INTERVAL)).map (fun length =>
    { applied_potential := npLinspace start e length
      time := npArangeTimes length })

/-- The cycle indices `range(2, cycles + 1)` of the middle cycles. -/
def midCycleIdx (cycles : Int) : List Int :=
  (List.range (cycles - 1).toNat).map (fun (k : Nat) => (k : Int) + 2)

/-- Model: `cyclic_voltammetry` (`waveforms_pot.py:90-155`): first cycle
`start → vertex1 → vertex2` labelled 1, middle cycles
`vertex2 → vertex1 → vertex2` labelled `2 … cycles`, and — only when
`end != vertex2` — a closing sweep `vertex2 → end` labelled `cycles`. -/
def cyclic_voltammetry (start v1 v2 e scan_rate : ℚ) (cycles : Int) :
    Option CyclicPotenOutput := do
  let s1 ← linear_sweep start v1 scan_rate
  let s2 ← linear_sweep v1 v2 scan_rate
  let up ← linear_sweep v2 v1 scan_rate
  let down ← linear_sweep v1 v2 scan_rate
  let extra ← if e = v2 then some ([] : List ℚ)
    else (linear_sweep v2 e scan_rate).map (fun s => s.applied_potential)
  let mids := midCycleIdx cycles
  let applied :=
    s1.applied_potential ++ s2.applied_potential ++
      (mids.map (fun _ => up.applied_potential ++ down.applied_potential)).flatten ++ extra
  let cyc :=
    List.replicate (s1.applied_potential.length + s2.applied_potential.length) (1 : Int) ++
      (mids.map (fun n =>
        List.replicate (up.applied_potential.length + down.applied_potential.length) n)).flatten ++
      (if e = v2 then [] else List.replicate extra.length cycles)
  pure { applied_potential := applied
         time := npArangeTimes applied.length
         cycle := cyc }

/-- Model: `single_point` (`waveforms_gal.py:10`). -/
def single_point (current duration : ℚ) : Option GalvanoOutput :=
  (npLen (duration / POINT_INTERVAL)).map (fun num_points =>
    { applied_current := List.replicate num_points current
      time := npArangeTimes num_points
      current_steps := [current]
      duration_steps := [duration]
      length_steps := [num_points] })

/-- Model: `current_steps` (`waveforms_gal.py:40`). -/
def current_steps (currents : List ℚ) (step_duration : ℚ) : Option GalvanoOutput :=
  (npLen (step_duration / POINT_INTERVAL)).map (fun k =>
    let applied := npRepeat currents k
    { applied_current := applied
      time := npArangeTimes applied.length
      current_steps := currents
      duration_steps := List.replicate currents.length step_duration
      length_steps := List.replicate currents.length k })

/-- Model: `linear_galvanostatic_sweep` (`waveforms_gal.py:72`). -/
def linear_galvanostatic_sweep (start e : ℚ) (num_steps : Int) (step_duration : ℚ) :
    Option GalvanoOutput := do
  let ns ← npNum num_steps
  let k ← npLen (step_duration / POINT_INTERVAL)
  let currents := npLinspace start e ns
  let applied := npRepeat currents k
  pure { applied_current := applied
         time := npArangeTimes applied.length
         current_steps := currents
         duration_steps := List.replicate ns step_duration
         length_steps := List.replicate ns k }

/-- The cycle indices `range(1, cycles + 1)`. -/
def cycleIdxList (cycles : Int) : List Int :=
  (List.range cycles.toNat).map (fun (j : Nat) => (j : Int) + 1)

/-- One segment sweep of `cyclic_galvanostatic`: its step currents. -/
def galSegName (ns : Nat) (p : ℚ × ℚ) : List ℚ :=
  npLinspace p.1 p.2 ns

/-- Model: `cyclic_galvanostatic` (`waveforms_gal.py:105-177`): per cycle the
three sweeps `start → vertex1 → vertex2 → start`, each a `num_steps`-step
staircase of `points_per_step` points; optionally a final
`start → end` sweep labelled `cycles + 1` when `end` is given and
differs from `start`; `ValueError` (`np.concatenate([])`) when no
segment at all was produced. -/
def cyclic_galvanostatic (start v1 v2 : ℚ) (num_steps : Int) (step_duration : ℚ)
    (cycles : Int) (e : Option ℚ) : Option CyclicGalvanoOutput := do
  let ns ← npNum num_steps
  let k ← npLen (step_duration / POINT_INTERVAL)
  let cyc := cycleIdxList cycles
  let triple := [(start, v1), (v1, v2), (v2, start)]
  let hasFinal := match e with
    | none => false
    | some ev => decide (ev ≠ start)
  if cyc = [] ∧ hasFinal = false then none
  else
    let segOf := fun (p : ℚ × ℚ) => npRepeat (galSegName ns p) k
    let mainApplied := (cyc.map (fun _ => (triple.map segOf).flatten)).flatten
    let mainCycle := (cyc.map (fun n =>
      (triple.map (fun p => List.replicate (segOf p).length n)).flatten)).flatten
    let mainSteps := (cyc.map (fun _ => (triple.map (galSegName ns)).flatten)).flatten
    let mainDur := (cyc.map (fun _ =>
      (triple.map (fun _ => List.replicate ns step_duration)).flatten)).flatten
    let mainLen := (cyc.map (fun _ =>
      (triple.map (fun _ => List.replicate ns k)).flatten)).flatten
    let finalSteps := match e with
      | none => []
      | some ev => if ev ≠ start then galSegName ns (start, ev) else []
    let finalApplied := npRepeat finalSteps k
    let finalPresent := hasFinal
    pure { applied_current := mainApplied ++ finalApplied
           time := npArangeTimes (mainApplied ++ finalApplied).length
           cycle := mainCycle ++
             (if finalPresent then List.replicate finalApplied.length (cycles + 1) else [])
           current_steps := mainSteps ++ finalSteps
           duration_steps := mainDur ++
             (if finalPresent then List.replicate ns step_duration else [])
           length_steps := mainLen ++ (if finalPresent then List.replicate ns k else []) }

/-- Model: `ocp_waveform` (`waveforms_ocp.py:7`). -/
def ocp_waveform (duration : ℚ) : Option BaseOuput :=
  (npLen (duration / POINT_INTERVAL)).map (fun num_points =>
    { time := npArangeTimes num_points })

/-!
## Theorems
-/

/-- Both attempt gates compare `st - timestamp * 0` with the threshold,
so the recorded failure timestamp cancels out of the condition. -/
theorem gate_eq_clock (st dly busy : Int) :
    read_gate st dly busy = decide (busy < st) ∧
    write_gate st dly busy = decide (busy < st) := by
  simp [read_gate, write_gate]

/-- Claim C2 (counterexample): take a failure recorded at
`rd_dly_st = wr_dly_st = 10^9 ns` and the very next attempt at
`st = 10^9 ns`, so that zero time — far less than the 400 ms busy
threshold — has elapsed since the failure.  The claim requires the
attempt to be skipped, but both gates evaluate to `true` (the timestamp
is multiplied by 0 at `controller.py:377` and `controller.py:604`), so
the attempt is issued. -/
theorem C2_counterexample :
    read_gate 1000000000 1000000000 BUSSY_DLAY_NS = true ∧
    write_gate 1000000000 1000000000 BUSSY_DLAY_NS = true ∧
    (1000000000 - 1000000000 : Int) ≤ BUSSY_DLAY_NS := by
  decide

/-- Claim C2 (amended): the busy-delay condition ignores the recorded
failure timestamp entirely — the gate is `busy_dly_ns < st`, i.e. an
attempt is issued exactly when the raw monotonic clock exceeds the
threshold (which is always the case 400 ms after boot), with no
per-failure backoff on either channel. -/
theorem C2_amended_gate_ignores_failure_time (st dly busy : Int) :
    read_gate st dly busy = decide (busy < st) ∧
    write_gate st dly busy = decide (busy < st) := by
  simp [read_gate, write_gate]

/-- The error counter over a run of consecutive failures starting from
count `cnt ≤ ceiling`: the fatal raise happens at 0-based attempt index
`ceiling - cnt` iff the run is long enough to reach it. -/
theorem fatalAt_replicate_false (c : Nat) :
    ∀ (n cnt : Nat), cnt ≤ c →
      fatalAt c cnt (List.replicate n false) =
        if c - cnt + 1 ≤ n then some (c - cnt) else none := by
  intro n
  induction n with
  | zero =>
    intro cnt h
    simp [fatalAt]
  | succ n ih =>
    intro cnt h
    rw [List.replicate_succ]
    by_cases hc : c < cnt + 1
    · have hcc : c = cnt := by omega
      simp [fatalAt, hc, hcc]
    · rw [show (fatalAt c cnt (false :: List.replicate n false)) =
          (fatalAt c (cnt + 1) (List.replicate n false)).map (fun j => j + 1) by
            simp [fatalAt, hc]]
      rw [ih (cnt + 1) (by omega)]
      by_cases hn : c - (cnt + 1) + 1 ≤ n
      · have : c - cnt + 1 ≤ n + 1 := by omega
        simp [hn, this]
        omega
      · have : ¬ (c - cnt + 1 ≤ n + 1) := by omega
        simp [hn, this]

/-- Claim C3: over the per-channel error counter of the acquisition loops
(`controller.py:382-391` for reads, `609-616` for writes), a link failing
every attempt raises the fatal error exactly at the 11th write attempt
(index 10, ceiling 10) and exactly at the 17th read attempt (index 16,
ceiling 16) — iff the trace reaches that attempt, hence never earlier and
never later — and a successful attempt restarts the counter at zero. -/
theorem C3_error_ceiling :
    (∀ n, fatalAt 10 0 (List.replicate n false) = if 11 ≤ n then some 10 else none) ∧
    (∀ n, fatalAt 16 0 (List.replicate n false) = if 17 ≤ n then some 16 else none) ∧
    (∀ (c cnt : Nat) (rest : List Bool),
      fatalAt c cnt (true :: rest) = (fatalAt c 0 rest).map (fun j => j + 1)) := by
  refine ⟨fun n => ?_, fun n => ?_, fun c cnt rest => ?_⟩
  · simpa using fatalAt_replicate_false 10 n 0 (by omega)
  · simpa using fatalAt_replicate_false 16 n 0 (by omega)
  · simp [fatalAt]

/-- Claim C4: evaluating `_read_write_data_pid_active` on the waveform
segment lengths `length_steps = [2, 2]` against a link whose every read
returns one sample.  Each pair is `(PID-target writes, samples collected)`
per segment: the PID target is indeed written exactly once per segment,
but the second segment collects 0 samples, not `length_steps[1] = 2`,
because the loop compares the cumulative `rd_tx_reg` — never reset
between segments (`controller.py:500`) — against the per-segment length. -/
theorem C4_cumulative_count_bug :
    read_write_data_pid_active 1 10 [2, 2] = some [(1, 2), (1, 0)] := by
  decide

/-- Claim C6 (counterexample): `convert_uint16_to_float32` applied to the
two words packed from one float (bit pattern 0 here, the value 0.0)
raises: its final `np.reshape(rd_list, (-1, 2))` needs an even number of
floats, but two words decode to a single float. -/
theorem C6_counterexample :
    convert_uint16_to_float32 (float_to_uint16_list 0) = none := by
  decide

/-- Claim C6 (amended): the packing is a byte-exact round trip at the bit
level — decoding the two words of `float_to_uint16_list x` back through
the `np.frombuffer(…, np.float32)` reinterpretation recovers exactly the
original 32-bit pattern — and `convert_uint16_to_float32` itself inverts
the packing of a pair of floats (a whole `(current, potential)` row),
since its trailing reshape demands an even float count. -/
theorem C6_amended_roundtrip (x y : Nat) (hx : x < 4294967296) (hy : y < 4294967296) :
    wordsToFloat32 (float_to_uint16_list x) = some [x] ∧
    convert_uint16_to_float32 (float_to_uint16_list x ++ float_to_uint16_list y) =
      some [(x, y)] := by
  constructor
  · simp [wordsToFloat32, float_to_uint16_list, pairWords]
    omega
  · simp [convert_uint16_to_float32, wordsToFloat32, float_to_uint16_list, pairWords,
      reshapeRows]
    constructor
    · omega
    · omega

/-- Witness for the amended C6 round trip at the bit patterns
`0x80000000` (the float32 `-0.0`) and `1` (the smallest positive
subnormal float32). -/
theorem C6_amended_roundtrip_witness :
    wordsToFloat32 (float_to_uint16_list 2147483648) = some [2147483648] ∧
    convert_uint16_to_float32 (float_to_uint16_list 2147483648 ++ float_to_uint16_list 1) =
      some [(2147483648, 1)] :=
  C6_amended_roundtrip 2147483648 1 (by decide) (by decide)

/-- Claim C9: `send_command` does not let a
`minimalmodbus.SlaveReportedException` from the underlying register write
surface to the caller — it swallows it and calls `exit()`
(`device.py:31-34`), against its own docstring ("an exception will be
raised"); only other fault types propagate. -/
theorem C9_send_command_swallows_slave_fault :
    send_command (some ModbusFault.slaveReported) = SendResult.processExit ∧
    SendResult.processExit ≠ SendResult.raised ModbusFault.slaveReported ∧
    send_command (some ModbusFault.otherFault) = SendResult.raised ModbusFault.otherFault ∧
    send_command none = SendResult.ok := by
  decide

/-- With the monotonic clock past the busy threshold the write phase's
attempt list is `[Ev.wr]` exactly while stimulus words remain. -/
theorem writePhase_fst (n_items n_register : Nat) (busy : Int) (s : PotState)
    (o : PotOutcome) (hlt : busy < o.st) :
    (writePhase n_items n_register busy s o).1 =
      if s.i < n_items then [Ev.wr] else [] := by
  unfold writePhase
  by_cases hi : s.i < n_items
  · have hg : write_gate o.st s.wr_dly_st busy = true := by
      simp [write_gate]; omega
    cases hw : o.wrOk <;> simp [hi, hg, hw]
  · simp [hi]

/-- The write phase never decreases `i` and never touches
`post_read_attempts`. -/
theorem writePhase_state (n_items n_register : Nat) (busy : Int) (s : PotState)
    (o : PotOutcome) :
    s.i ≤ (writePhase n_items n_register busy s o).2.1.i ∧
    (writePhase n_items n_register busy s o).2.1.post_read_attempts =
      s.post_read_attempts := by
  unfold writePhase
  by_cases hi : s.i < n_items
  · cases hg : write_gate o.st s.wr_dly_st busy <;> cases hw : o.wrOk <;>
      simp [hi, hg, hw]
  · simp [hi]

/-- Consuming a read result does not touch `i`. -/
theorem applyRead_i (s : PotState) (r : RdResult) : (applyRead s r).i = s.i := by
  unfold applyRead
  cases hd : r.data
  · rfl
  · simp only []
    split <;> rfl

/-- Consuming a read result does not touch `post_read_attempts`. -/
theorem applyRead_post (s : PotState) (r : RdResult) :
    (applyRead s r).post_read_attempts = s.post_read_attempts := by
  unfold applyRead
  cases hd : r.data
  · rfl
  · simp only []
    split <;> rfl

/-- With the clock past the threshold, `_read_operation` issues its
attempt. -/
theorem read_operation_attempted (st busy dly : Int) (err : Nat) (o : ReadOutcome)
    (h : busy < st) : (read_operation st busy dly err o).attempted = true := by
  unfold read_operation
  have hg : read_gate st dly busy = true := by simp [read_gate]; omega
  cases ho : o.ok <;> simp [hg, ho]

/-- A completed (non-fatal) iteration of the potentiostatic loop with the
clock past the busy threshold issues exactly two read attempts, after the
single write attempt that is present exactly while stimulus words
remain. -/
theorem potIter_trace (n_items n_register : Nat) (busy : Int) (s : PotState)
    (o : PotOutcome) (s' : PotState) (hlt : busy < o.st)
    (hsome : (potIter n_items n_register busy s o).2 = some s') :
    (potIter n_items n_register busy s o).1 =
      (if s.i < n_items then [Ev.wr] else []) ++ [Ev.rd, Ev.rd] := by
  have hev := writePhase_fst n_items n_register busy s o hlt
  unfold potIter at hsome ⊢
  rcases hwp : writePhase n_items n_register busy s o with ⟨ev, s1, fat⟩
  rw [hwp] at hsome hev
  dsimp only at hsome hev ⊢
  cases fat
  · simp only [Bool.false_eq_true, if_false] at hsome ⊢
    have ha1 := read_operation_attempted o.st busy s1.rd_dly_st s1.rd_err_cnt o.rd1 hlt
    rcases hr1 : read_operation o.st busy s1.rd_dly_st s1.rd_err_cnt o.rd1 with
      ⟨d1, dl1, e1, a1, f1⟩
    rw [hr1] at ha1 hsome
    dsimp only at ha1 hsome ⊢
    subst ha1
    cases f1
    · simp only [Bool.false_eq_true, if_false] at hsome ⊢
      have ha2 := read_operation_attempted o.st busy
        (applyRead s1 ⟨d1, dl1, e1, true, false⟩).rd_dly_st
        (applyRead s1 ⟨d1, dl1, e1, true, false⟩).rd_err_cnt o.rd2 hlt
      rcases hr2 : read_operation o.st busy
        (applyRead s1 ⟨d1, dl1, e1, true, false⟩).rd_dly_st
        (applyRead s1 ⟨d1, dl1, e1, true, false⟩).rd_err_cnt o.rd2 with
        ⟨d2, dl2, e2, a2, f2⟩
      rw [hr2] at ha2 hsome
      dsimp only at ha2 hsome ⊢
      subst ha2
      cases f2
      · simp [hev]
      · simp at hsome
    · simp at hsome
  · simp at hsome

/-- Invariant of the loop body: once `post_read_attempts` is nonzero, all
stimulus words have been pushed (`n_items ≤ i`). -/
theorem potIter_inv (n_items n_register : Nat) (busy : Int) (s : PotState)
    (o : PotOutcome) (s' : PotState)
    (hsome : (potIter n_items n_register busy s o).2 = some s')
    (hinv : s.post_read_attempts ≠ 0 → n_items ≤ s.i) :
    s'.post_read_attempts ≠ 0 → n_items ≤ s'.i := by
  have hst := writePhase_state n_items n_register busy s o
  unfold potIter at hsome
  rcases hwp : writePhase n_items n_register busy s o with ⟨ev, s1, fat⟩
  rw [hwp] at hsome hst
  dsimp only at hsome hst
  cases fat
  · simp only [Bool.false_eq_true, if_false] at hsome
    rcases hr1 : read_operation o.st busy s1.rd_dly_st s1.rd_err_cnt o.rd1 with
      ⟨d1, dl1, e1, a1, f1⟩
    rw [hr1] at hsome
    dsimp only at hsome
    cases f1
    · simp only [Bool.false_eq_true, if_false] at hsome
      rcases hr2 : read_operation o.st busy
        (applyRead s1 ⟨d1, dl1, e1, a1, false⟩).rd_dly_st
        (applyRead s1 ⟨d1, dl1, e1, a1, false⟩).rd_err_cnt o.rd2 with
        ⟨d2, dl2, e2, a2, f2⟩
      rw [hr2] at hsome
      dsimp only at hsome
      cases f2
      · simp only [Bool.false_eq_true, if_false] at hsome
        set s3 := applyRead (applyRead s1 ⟨d1, dl1, e1, a1, false⟩) ⟨d2, dl2, e2, a2, false⟩
          with hs3
        have h3i : s3.i = s1.i := by
          rw [hs3, applyRead_i, applyRead_i]
        have h3p : s3.post_read_attempts = s.post_read_attempts := by
          rw [hs3, applyRead_post, applyRead_post, hst.2]
        by_cases hfin : n_items ≤ s3.i
        · simp only [hfin, if_true, Option.some.injEq] at hsome
          intro _
          rw [← hsome]
          simpa [h3i] using (h3i ▸ hfin)
        · simp only [hfin, if_false, Option.some.injEq] at hsome
          intro hp
          rw [← hsome] at hp ⊢
          have := hinv (by rw [h3p] at hp; exact hp)
          omega
      · simp at hsome
    · simp at hsome
  · simp at hsome

/-- Soundness of the loop's exit: when the fuelled run completes, the
guard is false and the invariant holds. -/
theorem potRun_sound (n_items n_register : Nat) (busy : Int)
    (oracle : Nat → PotOutcome) :
    ∀ (fuel k : Nat) (s sF : PotState),
      (s.post_read_attempts ≠ 0 → n_items ≤ s.i) →
      potRun n_items n_register busy oracle fuel k s = some sF →
      3 ≤ sF.post_read_attempts ∧
      (1 : ℚ) ≤ (sF.rd_tx_reg : ℚ) / (sF.wr_tx_reg : ℚ) / 2 ∧
      n_items ≤ sF.i := by
  intro fuel
  induction fuel with
  | zero => intro k s sF _ hrun; simp [potRun] at hrun
  | succ fuel ih =>
    intro k s sF hinv hrun
    rw [potRun] at hrun
    by_cases hgd : potGuard s = true
    · rw [if_pos hgd] at hrun
      rcases hit : (potIter n_items n_register busy s (oracle k)).2 with _ | s1
      · rw [hit] at hrun; simp at hrun
      · rw [hit] at hrun
        exact ih (k + 1) s1 sF (potIter_inv n_items n_register busy s (oracle k) s1 hit hinv)
          hrun
    · rw [if_neg hgd] at hrun
      have hs : s = sF := by simpa using hrun
      subst hs
      have := hgd
      simp only [potGuard, Bool.or_eq_true, decide_eq_true_eq] at this
      push_neg at this
      refine ⟨by omega, this.2, hinv (by omega)⟩

/-- Claim C1: in the potentiostatic cadenced loop
(`_read_write_data_pid_inactive`, `controller.py:596-626`), (a) every
completed iteration — once the monotonic clock exceeds the busy
threshold, which is the physically inevitable case — issues exactly two
read attempts after the one write attempt present while stimulus words
remain, and no write attempt afterwards; (b) whenever the loop declares
completion it has written all stimulus words (`n_items ≤ i`), has made at
least 3 post-write read iterations, and the ratio
`rd_tx_reg / wr_tx_reg / 2` is at least 1 — never before. -/
theorem C1_potentiostatic_loop (n_items n_register : Nat) (busy : Int) :
    (∀ (s : PotState) (o : PotOutcome) (s' : PotState), busy < o.st →
        (potIter n_items n_register busy s o).2 = some s' →
        (potIter n_items n_register busy s o).1 =
          (if s.i < n_items then [Ev.wr] else []) ++ [Ev.rd, Ev.rd]) ∧
    (∀ (oracle : Nat → PotOutcome) (fuel k : Nat) (sF : PotState),
        potRun n_items n_register busy oracle fuel k potInit = some sF →
        3 ≤ sF.post_read_attempts ∧
        (1 : ℚ) ≤ (sF.rd_tx_reg : ℚ) / (sF.wr_tx_reg : ℚ) / 2 ∧
        n_items ≤ sF.i) := by
  constructor
  · intro s o s' hlt hsome
    exact potIter_trace n_items n_register busy s o s' hlt hsome
  · intro oracle fuel k sF hrun
    exact potRun_sound n_items n_register busy oracle fuel k potInit sF
      (by intro h; simp [potInit] at h) hrun

/-- Witness for C1 on a concrete healthy link: 120 stimulus words, chunk
size 120, every write and read succeeding with 120 words, clock at 1 s.
The loop terminates after 4 iterations with `post_read_attempts = 3`,
`rd_tx_reg = 720`, `wr_tx_reg = 120` and the drain conditions hold. -/
theorem C1_potentiostatic_loop_witness :
    ((potIter 120 120 400000000 potInit
        ⟨1000000000, true, 0, ⟨true, 120, 0⟩, ⟨true, 120, 0⟩⟩).1 =
      (if potInit.i < 120 then [Ev.wr] else []) ++ [Ev.rd, Ev.rd]) ∧
    (3 ≤ (⟨120, 120, 720, 0, 0, 0, 0, 3⟩ : PotState).post_read_attempts ∧
      (1 : ℚ) ≤ ((⟨120, 120, 720, 0, 0, 0, 0, 3⟩ : PotState).rd_tx_reg : ℚ) /
        ((⟨120, 120, 720, 0, 0, 0, 0, 3⟩ : PotState).wr_tx_reg : ℚ) / 2 ∧
      120 ≤ (⟨120, 120, 720, 0, 0, 0, 0, 3⟩ : PotState).i) := by
  have h := C1_potentiostatic_loop 120 120 400000000
  constructor
  · exact h.1 potInit ⟨1000000000, true, 0, ⟨true, 120, 0⟩, ⟨true, 120, 0⟩⟩
      ⟨120, 120, 240, 0, 0, 0, 0, 1⟩ (by decide) (by decide)
  · refine h.2 (fun _ => ⟨1000000000, true, 0, ⟨true, 120, 0⟩, ⟨true, 120, 0⟩⟩) 5 0 _ ?_
    have g0 : potGuard potInit = true := by norm_num [potGuard, potInit]
    have g1 : potGuard ⟨120, 120, 240, 0, 0, 0, 0, 1⟩ = true := by norm_num [potGuard]
    have g2 : potGuard ⟨120, 120, 480, 0, 0, 0, 0, 2⟩ = true := by norm_num [potGuard]
    have g3 : potGuard ⟨120, 120, 720, 0, 0, 0, 0, 3⟩ = false := by
      norm_num [potGuard]
    have i0 : (potIter 120 120 400000000 potInit
        ⟨1000000000, true, 0, ⟨true, 120, 0⟩, ⟨true, 120, 0⟩⟩).2 =
        some ⟨120, 120, 240, 0, 0, 0, 0, 1⟩ := by decide
    have i1 : (potIter 120 120 400000000 ⟨120, 120, 240, 0, 0, 0, 0, 1⟩
        ⟨1000000000, true, 0, ⟨true, 120, 0⟩, ⟨true, 120, 0⟩⟩).2 =
        some ⟨120, 120, 480, 0, 0, 0, 0, 2⟩ := by decide
    have i2 : (potIter 120 120 400000000 ⟨120, 120, 480, 0, 0, 0, 0, 2⟩
        ⟨1000000000, true, 0, ⟨true, 120, 0⟩, ⟨true, 120, 0⟩⟩).2 =
        some ⟨120, 120, 720, 0, 0, 0, 0, 3⟩ := by decide
    simp only [potRun, g0, g1, g2, g3, i0, i1, i2, if_true, Bool.false_eq_true, if_false]

/-- Consuming a queue trace of batches followed by the sentinel is the
batch-list run: the logger never reaches the empty (blocking) case. -/
theorem loggerConsume_stream (f : Nat) (w : LoggerWaveform) :
    ∀ (bs : List (List RowQ)) (buffer : List RowQ) (data_idx : Nat),
      loggerConsume f w (bs.map some ++ [none]) buffer data_idx =
        some (loggerRunAux f w bs buffer data_idx) := by
  intro bs
  induction bs with
  | nil => intro buffer d; rfl
  | cons b bs ih =>
    intro buffer d
    simp only [List.map_cons, List.cons_append, loggerConsume, loggerRunAux, List.append_eq]
    by_cases hc : 20 < (buffer ++ b).length ∧ f < (buffer ++ b).length
    · rw [if_pos hc, if_pos hc, ih]
      rfl
    · rw [if_neg hc, if_neg hc]
      exact ih _ _

/-- Claim C10: for any acquisition outcome — normal termination or an
abnormal abort of the acquisition thread — `_run_measurement`'s
`finally:` block (`controller.py:278-282`) delivers exactly one `None`
sentinel after the enqueued batches, and the `DataLogger.run` consumer
then terminates with precisely the output of the batch run, including the
final `if buffer:` flush of any buffered rows; it never reaches the
blocking end-of-trace case. -/
theorem C10_sentinel_and_final_flush (f : Nat) (w : LoggerWaveform) (o : AcqOutcome) :
    (run_measurement_stream o).count none = 1 ∧
    loggerConsume f w (run_measurement_stream o) [] 0 =
      some (loggerRunBatches f w (acqBatches o)) := by
  have hcount : ∀ bs : List (List RowQ), (bs.map some ++ [none]).count none = 1 := by
    intro bs
    rw [List.count_append]
    have h0 : (bs.map some).count (none : Option (List RowQ)) = 0 := by
      rw [List.count_eq_zero]
      simp
    simp [h0]
  cases o with
  | normal bs =>
    exact ⟨hcount bs, loggerConsume_stream f w bs [] 0⟩
  | abnormal bs =>
    exact ⟨hcount bs, loggerConsume_stream f w bs [] 0⟩

/-- Enrichment yields one output row per input row. -/
theorem enrichFrom_length (w : LoggerWaveform) :
    ∀ (rs : List RowQ) (idx : Nat), (enrichFrom w idx rs).length = rs.length := by
  intro rs
  induction rs with
  | nil => intro idx; rfl
  | cons r rs ih => intro idx; simp [enrichFrom, ih]

/-- Enrichment of a concatenation splits, the second part starting at the
shifted offset. -/
theorem enrichFrom_append (w : LoggerWaveform) :
    ∀ (a b : List RowQ) (idx : Nat),
      enrichFrom w idx (a ++ b) = enrichFrom w idx a ++ enrichFrom w (idx + a.length) b := by
  intro a
  induction a with
  | nil => intro b idx; simp [enrichFrom]
  | cons r a ih =>
    intro b idx
    simp only [List.cons_append, enrichFrom, List.length_cons, List.append_eq]
    rw [ih b (idx + 1), show idx + 1 + a.length = idx + (a.length + 1) by omega]

/-- Below one group size the chunking loop takes nothing. -/
theorem chunksExact_of_lt (f : Nat) (l : List (List ℚ)) (h : l.length < f) :
    chunksExact f l = [] := by
  rw [chunksExact]
  rw [dif_neg]
  omega

/-- The complete-group chunking takes a multiple of `f` rows, leaves
fewer than `f` rows, and its groups concatenate back to the taken
prefix. -/
theorem chunksExact_spec (f : Nat) (hf : 0 < f) :
    ∀ (n : Nat) (l : List (List ℚ)), l.length = n →
      f * (chunksExact f l).length ≤ l.length ∧
      l.length - f * (chunksExact f l).length < f ∧
      (chunksExact f l).flatten = l.take (f * (chunksExact f l).length) := by
  intro n
  induction n using Nat.strong_induction_on with
  | _ n ih =>
    intro l hl
    rw [chunksExact]
    by_cases h : 0 < f ∧ f ≤ l.length
    · rw [dif_pos h]
      obtain ⟨h1, h2, h3⟩ := ih (l.length - f) (by omega) (l.drop f) (by simp)
      simp only [List.length_cons, List.flatten_cons]
      rw [List.length_drop] at h1 h2
      refine ⟨by rw [Nat.mul_succ]; omega, by rw [Nat.mul_succ]; omega, ?_⟩
      rw [Nat.mul_succ, Nat.add_comm, List.take_add, h3]
    · rw [dif_neg h]
      have hlen : l.length < f := by
        by_contra hc
        push_neg at hc
        exact h ⟨hf, hc⟩
      refine ⟨by simp, by simp; omega, by simp⟩

/-- Chunking a concatenation whose first part is group-aligned chunks
each part separately. -/
theorem chunksExact_append (f : Nat) (hf : 0 < f) :
    ∀ (n : Nat) (a b : List (List ℚ)), a.length = n → f ∣ a.length →
      chunksExact f (a ++ b) = chunksExact f a ++ chunksExact f b := by
  intro n
  induction n using Nat.strong_induction_on with
  | _ n ih =>
    intro a b hl hdvd
    by_cases ha : a.length = 0
    · have ha0 : a = [] := List.length_eq_zero.mp ha
      subst ha0
      simp [chunksExact_of_lt f [] (by simpa using hf)]
    · have hfa : f ≤ a.length := Nat.le_of_dvd (by omega) hdvd
      rw [chunksExact]
      rw [dif_pos ⟨hf, by simp [List.length_append]; omega⟩]
      rw [List.take_append_of_le_length hfa, List.drop_append_of_le_length hfa]
      rw [ih (a.length - f) (by omega) (a.drop f) b (by simp)
        (by rw [List.length_drop]; exact (Nat.dvd_sub' hdvd dvd_rfl))]
      conv_rhs => rw [chunksExact, dif_pos ⟨hf, hfa⟩]
      simp

/-- With a group-aligned first part the full emission (complete groups
plus trailing remainder) also splits. -/
theorem chunksAll_append (f : Nat) (hf : 0 < f) (a x : List (List ℚ))
    (hdvd : f ∣ a.length) :
    chunksAll f (a ++ x) = chunksExact f a ++ chunksAll f x := by
  have hsplit := chunksExact_append f hf a.length a x rfl hdvd
  have hna : f * (chunksExact f a).length = a.length := by
    obtain ⟨h1, h2, _⟩ := chunksExact_spec f hf a.length a rfl
    obtain ⟨c, hc⟩ := hdvd
    set m := (chunksExact f a).length
    have hm : m ≤ c := by
      by_contra hcm
      push_neg at hcm
      have : f * c < f * m := mul_lt_mul_of_pos_left hcm hf
      omega
    have hcm : c ≤ m := by
      by_contra hmc
      push_neg at hmc
      have h4 : m + 1 ≤ c := hmc
      have : f * (m + 1) ≤ f * c := Nat.mul_le_mul_left f h4
      rw [Nat.mul_succ] at this
      omega
    have : m = c := le_antisymm hm hcm
    rw [this, hc]
  simp only [chunksAll]
  rw [hsplit]
  simp only [List.length_append, Nat.mul_add, hna]
  rw [List.drop_append]
  rw [List.append_assoc]

/-- No emitted row is dropped or duplicated: the emitted groups
concatenate back to the whole enriched sequence. -/
theorem chunksAll_flatten (f : Nat) (hf : 0 < f) (l : List (List ℚ)) :
    (chunksAll f l).flatten = l := by
  obtain ⟨h1, h2, h3⟩ := chunksExact_spec f hf l.length l rfl
  simp only [chunksAll]
  by_cases hrem : l.drop (f * (chunksExact f l).length) = []
  · rw [if_pos hrem]
    simp only [List.append_nil, List.flatten_append, h3]
    have hle : l.length ≤ f * (chunksExact f l).length := by
      have := List.drop_eq_nil_iff.mp hrem
      omega
    simp [List.take_of_length_le hle, h3]
  · rw [if_neg hrem]
    simp only [List.flatten_append, List.flatten_cons, List.flatten_nil, List.append_nil, h3]
    exact List.take_append_drop _ l

/-- While the cumulative sample count stays within the waveform arrays,
the `min_len` truncation is inactive. -/
theorem minLen_of_enough (w : LoggerWaveform) (d n : Nat)
    (hw : w.applied.length = w.time.length) (h : d + n ≤ w.time.length) :
    minLen w d n = n := by
  unfold minLen sliceLen
  omega

/-- Under the same condition the enriched buffer is the full buffer,
enriched at the running offset. -/
theorem enrich_of_enough (w : LoggerWaveform) (buffer : List RowQ) (d : Nat)
    (hw : w.applied.length = w.time.length) (h : d + buffer.length ≤ w.time.length) :
    enrich w buffer d = enrichFrom w d buffer := by
  unfold enrich
  rw [minLen_of_enough w d buffer.length hw h, List.take_length]

/-- A non-final `_save_batch` call within the metadata range: it emits
the averages of the complete groups, keeps the remainder buffered, and
advances `data_idx` by exactly the number of rows consumed. -/
theorem save_batch_noflush (f : Nat) (w : LoggerWaveform) (buffer : List RowQ) (d : Nat)
    (hf : 2 ≤ f) (hw : w.applied.length = w.time.length)
    (hn : d + buffer.length ≤ w.time.length) :
    save_batch f w buffer d false =
      ((chunksExact f (enrichFrom w d buffer)).map groupAvg,
       buffer.drop (f * (chunksExact f (enrichFrom w d buffer)).length),
       d + f * (chunksExact f (enrichFrom w d buffer)).length) := by
  obtain ⟨h1, h2, h3⟩ :=
    chunksExact_spec f (by omega) (enrichFrom w d buffer).length (enrichFrom w d buffer) rfl
  rw [enrichFrom_length] at h1 h2
  simp only [save_batch]
  rw [if_neg (by omega)]
  rw [enrich_of_enough w buffer d hw hn]
  simp only [Bool.false_eq_true, false_and, if_false, List.append_nil, Prod.mk.injEq,
    enrichFrom_length]
  refine ⟨trivial, trivial, by omega⟩

/-- The final `_save_batch` call (`flush_all=True`) within the metadata
range emits the averages of all groups, the trailing partial one
included. -/
theorem save_batch_flush_out (f : Nat) (w : LoggerWaveform) (buffer : List RowQ) (d : Nat)
    (hf : 2 ≤ f) (hw : w.applied.length = w.time.length)
    (hn : d + buffer.length ≤ w.time.length) :
    (save_batch f w buffer d true).1 = (chunksAll f (enrichFrom w d buffer)).map groupAvg := by
  simp only [save_batch]
  rw [if_neg (by omega)]
  rw [enrich_of_enough w buffer d hw hn]
  simp only [chunksAll, List.map_append]
  by_cases hrem :
      (enrichFrom w d buffer).drop (f * (chunksExact f (enrichFrom w d buffer)).length) = []
  · simp [hrem]
  · simp [hrem]

/-- Cutting an enriched stream at the group boundary of its first part:
emitting the complete groups of `x` now and chunking the leftover
together with the rest later is the same as chunking everything at
once. -/
theorem chunksAll_cut (f : Nat) (hf : 0 < f) (w : LoggerWaveform) (d : Nat)
    (x y : List RowQ) :
    (chunksAll f (enrichFrom w d (x ++ y))).map groupAvg =
      (chunksExact f (enrichFrom w d x)).map groupAvg ++
      (chunksAll f (enrichFrom w
        (d + f * (chunksExact f (enrichFrom w d x)).length)
        (x.drop (f * (chunksExact f (enrichFrom w d x)).length) ++ y))).map groupAvg := by
  obtain ⟨h1, h2, _⟩ :=
    chunksExact_spec f hf (enrichFrom w d x).length (enrichFrom w d x) rfl
  rw [enrichFrom_length] at h1 h2
  obtain ⟨k, hk⟩ : ∃ k, f * (chunksExact f (enrichFrom w d x)).length = k := ⟨_, rfl⟩
  have hkdvd : f ∣ k := hk ▸ Dvd.intro _ rfl
  rw [hk] at h1 h2 ⊢
  have hTlen : (x.take k).length = k := by rw [List.length_take]; omega
  have hTdvd : f ∣ (enrichFrom w d (x.take k)).length := by
    rw [enrichFrom_length, hTlen]
    exact hkdvd
  have hED : (enrichFrom w (d + k) (x.drop k)).length < f := by
    rw [enrichFrom_length, List.length_drop]
    omega
  have hEsplit : enrichFrom w d (x ++ y) =
      enrichFrom w d (x.take k) ++ enrichFrom w (d + k) (x.drop k ++ y) := by
    conv_lhs => rw [← List.take_append_drop k x]
    rw [List.append_assoc, enrichFrom_append, hTlen]
  have hchT : chunksExact f (enrichFrom w d x) =
      chunksExact f (enrichFrom w d (x.take k)) := by
    conv_lhs => rw [← List.take_append_drop k x]
    rw [enrichFrom_append, hTlen,
      chunksExact_append f hf (enrichFrom w d (x.take k)).length _ _ rfl hTdvd,
      chunksExact_of_lt f _ hED, List.append_nil]
  rw [hEsplit, chunksAll_append f hf _ _ hTdvd, List.map_append, hchT]

/-- The consumer loop with sufficient metadata equals chunking the whole
received sample sequence: complete groups as they become available,
the trailing partial group on the final flush. -/
theorem loggerRunAux_closed (f : Nat) (w : LoggerWaveform) (hf : 2 ≤ f)
    (hw : w.applied.length = w.time.length) :
    ∀ (bs : List (List RowQ)) (buffer : List RowQ) (d : Nat),
      d + buffer.length + bs.flatten.length ≤ w.time.length →
      loggerRunAux f w bs buffer d =
        (chunksAll f (enrichFrom w d (buffer ++ bs.flatten))).map groupAvg := by
  intro bs
  induction bs with
  | nil =>
    intro buffer d hn
    simp only [List.flatten_nil, List.append_nil, loggerRunAux]
    by_cases hb : buffer = []
    · subst hb
      simp [chunksAll, chunksExact_of_lt f [] (by simp; omega), enrichFrom]
    · rw [if_neg hb]
      exact save_batch_flush_out f w buffer d hf hw (by simpa using hn)
  | cons b bs ih =>
    intro buffer d hn
    simp only [loggerRunAux, List.flatten_cons]
    by_cases hc : 20 < (buffer ++ b).length ∧ f < (buffer ++ b).length
    · rw [if_pos hc]
      have hn' : d + (buffer ++ b).length ≤ w.time.length := by
        simp only [List.length_append, List.flatten_cons] at hn ⊢
        omega
      rw [save_batch_noflush f w (buffer ++ b) d hf hw hn']
      dsimp only
      obtain ⟨h1, h2, h3⟩ := chunksExact_spec f (by omega)
        (enrichFrom w d (buffer ++ b)).length (enrichFrom w d (buffer ++ b)) rfl
      rw [enrichFrom_length] at h1 h2
      have hIH := ih ((buffer ++ b).drop (f * (chunksExact f (enrichFrom w d (buffer ++ b))).length))
        (d + f * (chunksExact f (enrichFrom w d (buffer ++ b))).length)
        (by
          rw [List.length_drop, List.length_append]
          rw [List.length_append] at h1
          simp only [List.flatten_cons, List.length_append] at hn
          omega)
      rw [hIH]
      rw [show buffer ++ (b ++ bs.flatten) = (buffer ++ b) ++ bs.flatten from
        (List.append_assoc buffer b bs.flatten).symm]
      rw [chunksAll_cut f (by omega) w d (buffer ++ b) bs.flatten]
    · rw [if_neg hc]
      have hIH := ih (buffer ++ b) d
        (by simp only [List.length_append, List.flatten_cons, List.length_append] at hn ⊢
            omega)
      rw [hIH, List.append_assoc]

/-- Column sums of enriched rows keep the five-column layout. -/
theorem sumRows_enrich_length (w : LoggerWaveform) :
    ∀ (rows : List RowQ) (idx : Nat) (r : RowQ),
      (sumRows (enrichFrom w idx (r :: rows))).length = 5 := by
  intro rows
  induction rows with
  | nil => intro idx r; rfl
  | cons r' rest ih =>
    intro idx r
    simp only [enrichFrom, sumRows]
    rw [List.length_zipWith]
    have := ih (idx + 1) r'
    simp only [enrichFrom] at this
    rw [this]
    rfl

/-- Setting the head of a nonempty list fixes its `headD`. -/
theorem headD_set_zero (l : List ℚ) (a : ℚ) (h : l ≠ []) : (l.set 0 a).headD 0 = a := by
  cases l with
  | nil => exact absurd rfl h
  | cons x xs => rfl

/-- The time column of an averaged group is the first grouped sample's
waveform time, not an average. -/
theorem groupAvg_time_first (w : LoggerWaveform) (idx : Nat) (r : RowQ)
    (rows : List RowQ) :
    (groupAvg (enrichFrom w idx (r :: rows))).headD 0 = w.time.getD idx 0 := by
  simp only [enrichFrom, groupAvg]
  rw [headD_set_zero]
  · rfl
  · have h5 := sumRows_enrich_length w rows idx r
    simp only [enrichFrom] at h5
    intro hnil
    rw [← List.length_eq_zero] at hnil
    rw [List.length_map] at hnil
    omega

/-- The number of complete groups in an exact multiple of the group
size. -/
theorem chunksExact_length_of_mul (f : Nat) (hf : 0 < f) (l : List (List ℚ)) (k : Nat)
    (h : l.length = k * f) : (chunksExact f l).length = k := by
  obtain ⟨h1, h2, _⟩ := chunksExact_spec f hf l.length l rfl
  rw [h] at h1 h2
  set m := (chunksExact f l).length
  have hm : m ≤ k := by
    by_contra hc
    push_neg at hc
    have : k * f < m * f := mul_lt_mul_of_pos_right hc hf
    rw [Nat.mul_comm m f] at this
    omega
  have hk : k ≤ m := by
    by_contra hc
    push_neg at hc
    have h4 : m + 1 ≤ k := hc
    have : (m + 1) * f ≤ k * f := Nat.mul_le_mul_right f h4
    rw [Nat.succ_mul, Nat.mul_comm m f] at this
    omega
  omega

/-- Claim C5 (counterexample): `DataLogger` with reducing factor 2, a
waveform whose metadata arrays have 2 entries, and one received batch of
4 samples.  The claim requires 4/2 = 2 emitted rows with every received
sample in exactly one group; the logger emits a single row — the
`min_len` truncation in `_save_batch` (`logger.py:114-119`) silently
drops the two samples beyond the metadata length, and the
`return buffer[idx:]` tail of the sentinel flush is discarded by `run`
(`logger.py:72-74`). -/
theorem C5_counterexample :
    loggerRunBatches 2 ⟨[(0 : ℚ), 1], [(5 : ℚ), 6]⟩
        [[((1 : ℚ), (2 : ℚ)), (3, 4), (5, 6), (7, 8)]] =
      [[0, 3, 2, 1, 11 / 2]] ∧
    ([[((1 : ℚ), (2 : ℚ)), (3, 4), (5, 6), (7, 8)]] : List (List RowQ)).flatten.length = 4 := by
  constructor
  · show loggerRunAux 2 _ _ [] 0 = _
    rw [loggerRunAux]
    rw [if_neg (by norm_num)]
    rw [loggerRunAux]
    rw [if_neg (by simp)]
    simp only [save_batch]
    rw [if_neg (by norm_num)]
    have henr : enrich ⟨[(0 : ℚ), 1], [(5 : ℚ), 6]⟩
        ([] ++ [((1 : ℚ), (2 : ℚ)), (3, 4), (5, 6), (7, 8)]) 0 =
        [[0, 2, 1, 1, 5], [1, 4, 3, 1, 6]] := by
      simp only [List.nil_append, enrich, minLen, sliceLen]
      norm_num
      simp [enrichFrom, enrichRow]
    rw [henr]
    have hch : chunksExact 2 [[(0 : ℚ), 2, 1, 1, 5], [(1 : ℚ), 4, 3, 1, 6]] =
        [[[(0 : ℚ), 2, 1, 1, 5], [(1 : ℚ), 4, 3, 1, 6]]] := by
      rw [chunksExact]
      rw [dif_pos (by simp)]
      rw [chunksExact]
      rw [dif_neg (by simp)]
      rfl
    rw [hch]
    norm_num
    simp [groupAvg, sumRows]
    norm_num
  · simp

/-- Claim C5 (amended): provided the cumulative number of received
samples stays within the waveform metadata arrays (beyond them the
`min_len` alignment truncates and drops rows — see the counterexample),
the logger is exact: the whole run equals chunking the enriched sample
stream into consecutive groups of `f` with one trailing partial group,
each emitted row the column-wise average of its group except the time
column, which is the group's first sample time; the groups concatenate
back to the full stream (nothing dropped, nothing duplicated); and a
non-final flush of `k·f` buffered rows emits exactly `k` rows and keeps
nothing back. -/
theorem C5_amended_downsampling (f : Nat) (w : LoggerWaveform)
    (batches : List (List RowQ)) (hf : 2 ≤ f)
    (hw : w.applied.length = w.time.length)
    (hn : batches.flatten.length ≤ w.time.length) :
    loggerRunBatches f w batches =
      (chunksAll f (enrichFrom w 0 batches.flatten)).map groupAvg ∧
    (chunksAll f (enrichFrom w 0 batches.flatten)).flatten =
      enrichFrom w 0 batches.flatten ∧
    (∀ (buffer : List RowQ) (d k : Nat), buffer.length = k * f →
        d + buffer.length ≤ w.time.length →
        (save_batch f w buffer d false).1.length = k ∧
        (save_batch f w buffer d false).2.1 = []) ∧
    (∀ (idx : Nat) (r : RowQ) (rows : List RowQ),
        (groupAvg (enrichFrom w idx (r :: rows))).headD 0 = w.time.getD idx 0) ∧
    (∀ (g0 : List ℚ) (gs : List (List ℚ)),
        groupAvg (g0 :: gs) =
          ((sumRows (g0 :: gs)).map (fun q => q / ((gs.length + 1 : Nat) : ℚ))).set 0
            (g0.headD 0)) := by
  refine ⟨?_, chunksAll_flatten f (by omega) _, ?_, groupAvg_time_first w, fun g0 gs => rfl⟩
  · have h := loggerRunAux_closed f w hf hw batches [] 0 (by simpa using hn)
    simpa [loggerRunBatches] using h
  · intro buffer d k hk hd
    rw [save_batch_noflush f w buffer d hf hw hd]
    have hlen : (chunksExact f (enrichFrom w d buffer)).length = k :=
      chunksExact_length_of_mul f (by omega) _ k (by rw [enrichFrom_length, hk])
    constructor
    · simp [hlen]
    · simp only [hlen]
      apply List.drop_eq_nil_of_le
      rw [hk, Nat.mul_comm]

/-- Witness for the amended C5 on factor 2, a 4-point waveform and one
batch of 3 samples (one complete group and a trailing partial group). -/
theorem C5_amended_downsampling_witness :
    loggerRunBatches 2 ⟨[(0 : ℚ), 1, 2, 3], [(5 : ℚ), 5, 5, 5]⟩
        [[((1 : ℚ), (2 : ℚ)), (3, 4), (5, 6)]] =
      (chunksAll 2 (enrichFrom ⟨[(0 : ℚ), 1, 2, 3], [(5 : ℚ), 5, 5, 5]⟩ 0
        ([[((1 : ℚ), (2 : ℚ)), (3, 4), (5, 6)]] : List (List RowQ)).flatten)).map groupAvg := by
  have h := C5_amended_downsampling 2 ⟨[(0 : ℚ), 1, 2, 3], [(5 : ℚ), 5, 5, 5]⟩
    [[((1 : ℚ), (2 : ℚ)), (3, 4), (5, 6)]] (by norm_num) (by simp) (by simp)
  exact h.1

/-- Model: `np.arange(n) * POINT_INTERVAL` has `n` entries. -/
theorem npArangeTimes_length (n : Nat) : (npArangeTimes n).length = n := by
  simp [npArangeTimes]

/-- Entry `i` of the time base is `i * POINT_INTERVAL`. -/
theorem npArangeTimes_getD (n i : Nat) (h : i < n) :
    (npArangeTimes n).getD i 0 = (i : ℚ) * POINT_INTERVAL := by
  have hlen : i < (npArangeTimes n).length := by
    rw [npArangeTimes_length]
    exact h
  rw [List.getD_eq_getElem _ _ hlen]
  simp [npArangeTimes]

/-- Model: `np.linspace` returns the requested number of points. -/
theorem npLinspace_length (a b : ℚ) : ∀ n : Nat, (npLinspace a b n).length = n
  | 0 => rfl
  | 1 => rfl
  | n + 2 => by simp [npLinspace]

/-- Model: `np.repeat` multiplies the length by the repetition count. -/
theorem npRepeat_length (values : List ℚ) (k : Nat) :
    (npRepeat values k).length = values.length * k := by
  induction values with
  | nil => simp [npRepeat]
  | cons v vs ih =>
    simp only [npRepeat, List.map_cons, List.flatten_cons, List.length_append,
      List.length_replicate, List.length_cons] at ih ⊢
    rw [ih, Nat.succ_mul]
    omega

/-- Length of a flattened map whose entries all have the same length. -/
theorem flatten_map_const_length {α β : Type} (l : List α) (g : α → List β) (L : Nat)
    (h : ∀ x ∈ l, (g x).length = L) : ((l.map g).flatten).length = l.length * L := by
  induction l with
  | nil => simp
  | cons x xs ih =>
    simp only [List.map_cons, List.flatten_cons, List.length_append, List.length_cons]
    rw [h x (by simp), ih (fun y hy => h y (by simp [hy])), Nat.succ_mul]
    omega

/-- Sum of a flattened map whose entries all have the same sum. -/
theorem flatten_map_const_sum {α : Type} (l : List α) (g : α → List Nat) (S : Nat)
    (h : ∀ x ∈ l, (g x).sum = S) : ((l.map g).flatten).sum = l.length * S := by
  induction l with
  | nil => simp
  | cons x xs ih =>
    simp only [List.map_cons, List.flatten_cons, List.sum_append, List.length_cons]
    rw [h x (by simp), ih (fun y hy => h y (by simp [hy])), Nat.succ_mul]
    omega

/-- Sum of a constant list. -/
theorem sum_replicate_nat (n k : Nat) : (List.replicate n k).sum = n * k := by
  induction n with
  | zero => simp
  | succ n ih =>
    rw [List.replicate_succ, List.sum_cons, ih, Nat.succ_mul]
    omega

/-- Model: `constant_waveform` invariants. -/
theorem constant_waveform_inv (p d : ℚ) (w : PotenOutput)
    (hw : constant_waveform p d = some w) :
    w.applied_potential.length = w.time.length ∧
    (∀ i, i < w.time.length → w.time.getD i 0 = (i : ℚ) * POINT_INTERVAL) := by
  unfold constant_waveform at hw
  cases hn : npLen (d / POINT_INTERVAL) with
  | none => rw [hn] at hw; simp at hw
  | some n =>
    rw [hn] at hw
    simp only [Option.map_some', Option.some.injEq] at hw
    subst hw
    refine ⟨by simp [npArangeTimes_length], fun i hi => ?_⟩
    simp only [npArangeTimes_length] at hi
    exact npArangeTimes_getD n i hi

/-- Model: `linear_sweep` invariants. -/
theorem linear_sweep_inv (a b sr : ℚ) (w : PotenOutput)
    (hw : linear_sweep a b sr = some w) :
    w.applied_potential.length = w.time.length ∧
    (∀ i, i < w.time.length → w.time.getD i 0 = (i : ℚ) * POINT_INTERVAL) := by
  unfold linear_sweep at hw
  cases hn : npLen (abs (b - a) / sr / POINT_INTERVAL) with
  | none => rw [hn] at hw; simp at hw
  | some n =>
    rw [hn] at hw
    simp only [Option.map_some', Option.some.injEq] at hw
    subst hw
    refine ⟨by simp [npArangeTimes_length, npLinspace_length], fun i hi => ?_⟩
    simp only [npArangeTimes_length] at hi
    exact npArangeTimes_getD n i hi

/-- Model: `potential_steps` invariants. -/
theorem potential_steps_inv (ps : List ℚ) (sd : ℚ) (w : SteppedPotenOutput)
    (hw : potential_steps ps sd = some w) :
    w.applied_potential.length = w.time.length ∧
    (∀ i, i < w.time.length → w.time.getD i 0 = (i : ℚ) * POINT_INTERVAL) := by
  unfold potential_steps at hw
  cases hn : npLen (sd / POINT_INTERVAL) with
  | none => rw [hn] at hw; simp at hw
  | some n =>
    rw [hn] at hw
    simp only [Option.some_bind] at hw
    by_cases hps : ps = []
    · rw [if_pos hps] at hw; simp at hw
    · rw [if_neg hps] at hw
      simp only [Option.some.injEq] at hw
      subst hw
      refine ⟨by simp [npArangeTimes_length], fun i hi => ?_⟩
      simp only [npArangeTimes_length] at hi
      exact npArangeTimes_getD _ i hi

/-- Model: `ocp_waveform` invariant (its only array is `time`). -/
theorem ocp_waveform_inv (d : ℚ) (w : BaseOuput) (hw : ocp_waveform d = some w) :
    ∀ i, i < w.time.length → w.time.getD i 0 = (i : ℚ) * POINT_INTERVAL := by
  unfold ocp_waveform at hw
  cases hn : npLen (d / POINT_INTERVAL) with
  | none => rw [hn] at hw; simp at hw
  | some n =>
    rw [hn] at hw
    simp only [Option.map_some', Option.some.injEq] at hw
    subst hw
    intro i hi
    simp only [npArangeTimes_length] at hi
    exact npArangeTimes_getD n i hi

/-- Model: `single_point` invariants, including the segment-length sum. -/
theorem single_point_inv (c d : ℚ) (w : GalvanoOutput) (hw : single_point c d = some w) :
    w.applied_current.length = w.time.length ∧
    (∀ i, i < w.time.length → w.time.getD i 0 = (i : ℚ) * POINT_INTERVAL) ∧
    w.length_steps.sum = w.applied_current.length := by
  unfold single_point at hw
  cases hn : npLen (d / POINT_INTERVAL) with
  | none => rw [hn] at hw; simp at hw
  | some n =>
    rw [hn] at hw
    simp only [Option.map_some', Option.some.injEq] at hw
    subst hw
    refine ⟨by simp [npArangeTimes_length], fun i hi => ?_, by simp⟩
    simp only [npArangeTimes_length] at hi
    exact npArangeTimes_getD n i hi

/-- Model: `current_steps` invariants, including the segment-length sum. -/
theorem current_steps_inv (cs : List ℚ) (sd : ℚ) (w : GalvanoOutput)
    (hw : current_steps cs sd = some w) :
    w.applied_current.length = w.time.length ∧
    (∀ i, i < w.time.length → w.time.getD i 0 = (i : ℚ) * POINT_INTERVAL) ∧
    w.length_steps.sum = w.applied_current.length := by
  unfold current_steps at hw
  cases hn : npLen (sd / POINT_INTERVAL) with
  | none => rw [hn] at hw; simp at hw
  | some k =>
    rw [hn] at hw
    simp only [Option.map_some', Option.some.injEq] at hw
    subst hw
    refine ⟨by simp [npArangeTimes_length], fun i hi => ?_, ?_⟩
    · simp only [npArangeTimes_length] at hi
      exact npArangeTimes_getD _ i hi
    · simp only [npRepeat_length, sum_replicate_nat]

/-- Model: `linear_galvanostatic_sweep` invariants, including the
segment-length sum. -/
theorem linear_galvanostatic_sweep_inv (a b : ℚ) (ns : Int) (sd : ℚ) (w : GalvanoOutput)
    (hw : linear_galvanostatic_sweep a b ns sd = some w) :
    w.applied_current.length = w.time.length ∧
    (∀ i, i < w.time.length → w.time.getD i 0 = (i : ℚ) * POINT_INTERVAL) ∧
    w.length_steps.sum = w.applied_current.length := by
  unfold linear_galvanostatic_sweep at hw
  cases hn : npNum ns with
  | none => rw [hn] at hw; simp at hw
  | some n =>
    rw [hn] at hw
    cases hk : npLen (sd / POINT_INTERVAL) with
    | none => rw [hk] at hw; simp at hw
    | some k =>
      rw [hk] at hw
      simp only [Option.bind_eq_bind, Option.some_bind, Option.pure_def,
        Option.some.injEq] at hw
      subst hw
      refine ⟨by simp [npArangeTimes_length], fun i hi => ?_, ?_⟩
      · simp only [npArangeTimes_length] at hi
        exact npArangeTimes_getD _ i hi
      · simp only [npRepeat_length, sum_replicate_nat, npLinspace_length]

/-- Model: `cyclic_voltammetry` invariants. -/
theorem cyclic_voltammetry_inv (s v1 v2 e sr : ℚ) (cycles : Int) (w : CyclicPotenOutput)
    (hw : cyclic_voltammetry s v1 v2 e sr cycles = some w) :
    w.applied_potential.length = w.time.length ∧
    (∀ i, i < w.time.length → w.time.getD i 0 = (i : ℚ) * POINT_INTERVAL) := by
  unfold cyclic_voltammetry at hw
  by_cases he : e = v2
  · subst he
    simp only [eq_self_iff_true, if_true, Option.bind_eq_bind, Option.bind_eq_some,
      Option.some_bind, Option.pure_def, Option.some.injEq] at hw
    obtain ⟨s1, hs1, s2, hs2, up, hup, down, hdown, hw⟩ := hw
    subst hw
    refine ⟨by simp [npArangeTimes_length], fun i hi => ?_⟩
    simp only [npArangeTimes_length] at hi
    exact npArangeTimes_getD _ i hi
  · simp only [he, if_false, Option.bind_eq_bind, Option.bind_eq_some, Option.map_eq_some',
      Option.pure_def, Option.some.injEq] at hw
    obtain ⟨s1, hs1, s2, hs2, up, hup, down, hdown, extra, ⟨sx, hsx, hex⟩, hw⟩ := hw
    subst hw
    refine ⟨by simp [npArangeTimes_length], fun i hi => ?_⟩
    simp only [npArangeTimes_length] at hi
    exact npArangeTimes_getD _ i hi

/-- Model: `cyclic_galvanostatic` invariants, including the segment-length
sum. -/
theorem cyclic_galvanostatic_inv (s v1 v2 : ℚ) (nsI : Int) (sd : ℚ) (cyclesI : Int)
    (e : Option ℚ) (w : CyclicGalvanoOutput)
    (hw : cyclic_galvanostatic s v1 v2 nsI sd cyclesI e = some w) :
    w.applied_current.length = w.time.length ∧
    (∀ i, i < w.time.length → w.time.getD i 0 = (i : ℚ) * POINT_INTERVAL) ∧
    w.length_steps.sum = w.applied_current.length := by
  unfold cyclic_galvanostatic at hw
  cases hn : npNum nsI with
  | none => rw [hn] at hw; simp at hw
  | some ns =>
    rw [hn] at hw
    cases hk : npLen (sd / POINT_INTERVAL) with
    | none => rw [hk] at hw; simp at hw
    | some k =>
      rw [hk] at hw
      simp only [Option.bind_eq_bind, Option.some_bind] at hw
      split at hw
      · simp at hw
      · simp only [Option.pure_def, Option.some.injEq] at hw
        subst hw
        dsimp only
        refine ⟨by simp [npArangeTimes_length], fun i hi => ?_, ?_⟩
        · simp only [npArangeTimes_length] at hi
          exact npArangeTimes_getD _ i hi
        · rw [List.sum_append, List.length_append]
          have hinnerSum :
              ∀ x ∈ cycleIdxList cyclesI,
                (([(s, v1), (v1, v2), (v2, s)].map
                  (fun _ => List.replicate ns k)).flatten).sum = 3 * (ns * k) := by
            intro x _
            simp only [List.map_cons, List.map_nil, List.flatten_cons, List.flatten_nil,
              List.sum_append, List.sum_nil, sum_replicate_nat]
            ring
          have hinnerLen :
              ∀ x ∈ cycleIdxList cyclesI,
                (([(s, v1), (v1, v2), (v2, s)].map
                  (fun p => npRepeat (galSegName ns p) k)).flatten).length = 3 * (ns * k) := by
            intro x _
            simp only [List.map_cons, List.map_nil, List.flatten_cons, List.flatten_nil,
              List.length_append, List.length_nil, npRepeat_length, galSegName,
              npLinspace_length]
            ring
          rw [flatten_map_const_sum _ _ _ hinnerSum, flatten_map_const_length _ _ _ hinnerLen]
          cases e with
          | none =>
            simp [npRepeat]
          | some ev =>
            dsimp only
            by_cases hev : ev = s
            · subst hev
              simp [npRepeat]
            · simp only [decide_eq_true_eq]
              rw [if_pos hev, if_pos hev]
              simp [sum_replicate_nat, npRepeat_length, galSegName, npLinspace_length]

/-- Claim C7: every technique's waveform generator, on any parameter set
for which it returns a waveform, satisfies: the stimulus and time arrays
have equal length `N`, `time[i] = i * POINT_INTERVAL` for every
`i < N`, and — for the galvanostatic generators, which produce
per-segment metadata — `length_steps` sums to `N`.  (`ocp_waveform`
carries only the time array, for which the time law holds.) -/
theorem C7_waveform_invariants :
    (∀ (p d : ℚ) (w : PotenOutput), constant_waveform p d = some w →
        w.applied_potential.length = w.time.length ∧
        (∀ i, i < w.time.length → w.time.getD i 0 = (i : ℚ) * POINT_INTERVAL)) ∧
    (∀ (a b sr : ℚ) (w : PotenOutput), linear_sweep a b sr = some w →
        w.applied_potential.length = w.time.length ∧
        (∀ i, i < w.time.length → w.time.getD i 0 = (i : ℚ) * POINT_INTERVAL)) ∧
    (∀ (ps : List ℚ) (sd : ℚ) (w : SteppedPotenOutput), potential_steps ps sd = some w →
        w.applied_potential.length = w.time.length ∧
        (∀ i, i < w.time.length → w.time.getD i 0 = (i : ℚ) * POINT_INTERVAL)) ∧
    (∀ (s v1 v2 e sr : ℚ) (cycles : Int) (w : CyclicPotenOutput),
        cyclic_voltammetry s v1 v2 e sr cycles = some w →
        w.applied_potential.length = w.time.length ∧
        (∀ i, i < w.time.length → w.time.getD i 0 = (i : ℚ) * POINT_INTERVAL)) ∧
    (∀ (d : ℚ) (w : BaseOuput), ocp_waveform d = some w →
        ∀ i, i < w.time.length → w.time.getD i 0 = (i : ℚ) * POINT_INTERVAL) ∧
    (∀ (c d : ℚ) (w : GalvanoOutput), single_point c d = some w →
        w.applied_current.length = w.time.length ∧
        (∀ i, i < w.time.length → w.time.getD i 0 = (i : ℚ) * POINT_INTERVAL) ∧
        w.length_steps.sum = w.applied_current.length) ∧
    (∀ (cs : List ℚ) (sd : ℚ) (w : GalvanoOutput), current_steps cs sd = some w →
        w.applied_current.length = w.time.length ∧
        (∀ i, i < w.time.length → w.time.getD i 0 = (i : ℚ) * POINT_INTERVAL) ∧
        w.length_steps.sum = w.applied_current.length) ∧
    (∀ (a b : ℚ) (ns : Int) (sd : ℚ) (w : GalvanoOutput),
        linear_galvanostatic_sweep a b ns sd = some w →
        w.applied_current.length = w.time.length ∧
        (∀ i, i < w.time.length → w.time.getD i 0 = (i : ℚ) * POINT_INTERVAL) ∧
        w.length_steps.sum = w.applied_current.length) ∧
    (∀ (s v1 v2 : ℚ) (nsI : Int) (sd : ℚ) (cyclesI : Int) (e : Option ℚ)
        (w : CyclicGalvanoOutput), cyclic_galvanostatic s v1 v2 nsI sd cyclesI e = some w →
        w.applied_current.length = w.time.length ∧
        (∀ i, i < w.time.length → w.time.getD i 0 = (i : ℚ) * POINT_INTERVAL) ∧
        w.length_steps.sum = w.applied_current.length) :=
  ⟨constant_waveform_inv, linear_sweep_inv, potential_steps_inv, cyclic_voltammetry_inv,
    ocp_waveform_inv, single_point_inv, current_steps_inv, linear_galvanostatic_sweep_inv,
    cyclic_galvanostatic_inv⟩

/-- Witness for C7: every generator evaluated at a small concrete
parameter set (durations of two sample periods), with the invariants
obtained through `C7_waveform_invariants`. -/
theorem C7_waveform_invariants_witness :
    (∃ w, constant_waveform 1 (POINT_INTERVAL * 2) = some w ∧
        w.applied_potential.length = w.time.length) ∧
    (∃ w, linear_sweep 0 (POINT_INTERVAL * 2) 1 = some w ∧
        w.applied_potential.length = w.time.length) ∧
    (∃ w, potential_steps [(1 : ℚ), 2] (POINT_INTERVAL * 2) = some w ∧
        w.applied_potential.length = w.time.length) ∧
    (∃ w, cyclic_voltammetry 0 (POINT_INTERVAL * 2) 0 (POINT_INTERVAL * 2) 1 1 = some w ∧
        w.applied_potential.length = w.time.length) ∧
    (∃ w, ocp_waveform (POINT_INTERVAL * 2) = some w ∧
        ∀ i, i < w.time.length → w.time.getD i 0 = (i : ℚ) * POINT_INTERVAL) ∧
    (∃ w, single_point 1 (POINT_INTERVAL * 2) = some w ∧
        w.length_steps.sum = w.applied_current.length) ∧
    (∃ w, current_steps [(1 : ℚ), 2] (POINT_INTERVAL * 2) = some w ∧
        w.length_steps.sum = w.applied_current.length) ∧
    (∃ w, linear_galvanostatic_sweep 0 1 2 (POINT_INTERVAL * 2) = some w ∧
        w.length_steps.sum = w.applied_current.length) ∧
    (∃ w, cyclic_galvanostatic 0 1 2 1 (POINT_INTERVAL * 2) 1 none = some w ∧
        w.length_steps.sum = w.applied_current.length) := by
  have hq : (POINT_INTERVAL * 2) / POINT_INTERVAL = 2 := by
    unfold POINT_INTERVAL
    norm_num
  have hnp : ∀ q : ℚ, q = 2 → npLen q = some 2 := by
    intro q hq2
    subst hq2
    have ht : pyTrunc 2 = 2 := by
      unfold pyTrunc
      rw [if_pos (by norm_num)]
      norm_num
    unfold npLen
    rw [ht]
    decide
  have h2 : npLen ((POINT_INTERVAL * 2) / POINT_INTERVAL) = some 2 := hnp _ hq
  have hls : ∀ a b : ℚ, abs (b - a) = POINT_INTERVAL * 2 →
      linear_sweep a b 1 = some ⟨npLinspace a b 2, npArangeTimes 2⟩ := by
    intro a b hab
    unfold linear_sweep
    rw [hnp _ (by rw [hab]; unfold POINT_INTERVAL; norm_num)]
    rfl
  have habs1 : abs ((POINT_INTERVAL * 2) - 0) = POINT_INTERVAL * 2 := by
    unfold POINT_INTERVAL
    norm_num
  have habs2 : abs (0 - POINT_INTERVAL * 2) = POINT_INTERVAL * 2 := by
    unfold POINT_INTERVAL
    norm_num
  have hc : constant_waveform 1 (POINT_INTERVAL * 2) =
      some ⟨List.replicate 2 1, npArangeTimes 2⟩ := by
    unfold constant_waveform
    rw [h2]
    rfl
  have hl : linear_sweep 0 (POINT_INTERVAL * 2) 1 =
      some ⟨npLinspace 0 (POINT_INTERVAL * 2) 2, npArangeTimes 2⟩ := hls 0 _ habs1
  obtain ⟨wp, hwp⟩ : ∃ w, potential_steps [(1 : ℚ), 2] (POINT_INTERVAL * 2) = some w := by
    unfold potential_steps
    rw [h2]
    simp only [Option.some_bind]
    rw [if_neg (by simp)]
    exact ⟨_, rfl⟩
  obtain ⟨wcv, hwcv⟩ : ∃ w,
      cyclic_voltammetry 0 (POINT_INTERVAL * 2) 0 (POINT_INTERVAL * 2) 1 1 = some w := by
    unfold cyclic_voltammetry
    rw [hls 0 (POINT_INTERVAL * 2) habs1, hls (POINT_INTERVAL * 2) 0 habs2]
    have hne : ¬ ((POINT_INTERVAL * 2 : ℚ) = 0) := by
      unfold POINT_INTERVAL
      norm_num
    simp only [hne, if_false, Option.bind_eq_bind, Option.some_bind, Option.map_some']
    exact ⟨_, rfl⟩
  have ho : ocp_waveform (POINT_INTERVAL * 2) = some ⟨npArangeTimes 2⟩ := by
    unfold ocp_waveform
    rw [h2]
    rfl
  have hsp : single_point 1 (POINT_INTERVAL * 2) =
      some ⟨List.replicate 2 1, npArangeTimes 2, [1], [POINT_INTERVAL * 2], [2]⟩ := by
    unfold single_point
    rw [h2]
    rfl
  obtain ⟨wcs, hwcs⟩ : ∃ w, current_steps [(1 : ℚ), 2] (POINT_INTERVAL * 2) = some w := by
    unfold current_steps
    rw [h2]
    exact ⟨_, rfl⟩
  obtain ⟨wlg, hwlg⟩ : ∃ w, linear_galvanostatic_sweep 0 1 2 (POINT_INTERVAL * 2) = some w := by
    unfold linear_galvanostatic_sweep
    rw [show npNum 2 = some 2 from by decide]
    simp only [Option.bind_eq_bind, Option.some_bind]
    rw [h2]
    simp only [Option.some_bind]
    exact ⟨_, rfl⟩
  obtain ⟨wcg, hwcg⟩ : ∃ w, cyclic_galvanostatic 0 1 2 1 (POINT_INTERVAL * 2) 1 none = some w := by
    unfold cyclic_galvanostatic
    rw [show npNum 1 = some 1 from by decide]
    simp only [Option.bind_eq_bind, Option.some_bind]
    rw [h2]
    simp only [Option.some_bind]
    rw [if_neg (by decide)]
    exact ⟨_, rfl⟩
  exact ⟨⟨_, hc, (C7_waveform_invariants.1 _ _ _ hc).1⟩,
    ⟨_, hl, (C7_waveform_invariants.2.1 _ _ _ _ hl).1⟩,
    ⟨_, hwp, (C7_waveform_invariants.2.2.1 _ _ _ hwp).1⟩,
    ⟨_, hwcv, (C7_waveform_invariants.2.2.2.1 _ _ _ _ _ _ _ hwcv).1⟩,
    ⟨_, ho, C7_waveform_invariants.2.2.2.2.1 _ _ ho⟩,
    ⟨_, hsp, (C7_waveform_invariants.2.2.2.2.2.1 _ _ _ hsp).2.2⟩,
    ⟨_, hwcs, (C7_waveform_invariants.2.2.2.2.2.2.1 _ _ _ hwcs).2.2⟩,
    ⟨_, hwlg, (C7_waveform_invariants.2.2.2.2.2.2.2.1 _ _ _ _ _ hwlg).2.2⟩,
    ⟨_, hwcg, (C7_waveform_invariants.2.2.2.2.2.2.2.2 _ _ _ _ _ _ _ _ hwcg).2.2⟩⟩

/-- Claim C8 (counterexample): at start=-0.5, vertex1=0.5, vertex2=-0.5,
end=0.5, scan_rate=0.5, cycles=2 the closing leg is present (end ≠
vertex2), but `waveforms_pot.py:148` labels it `cycles` — the label of
the last primary cycle — so the cycle array takes exactly the 2 distinct
values {1, 2}, not 2 primary values plus one extra distinct value. -/
theorem C8_counterexample :
    ∃ w, cyclic_voltammetry (-(1 : ℚ) / 2) (1 / 2) (-(1 : ℚ) / 2) (1 / 2) (1 / 2) 2 = some w ∧
      w.cycle.toFinset = ({1, 2} : Finset Int) ∧ ({1, 2} : Finset Int).card = 2 := by
  have hnp : npLen ((1 : ℚ) / (1 / 2) / POINT_INTERVAL) = some 5555 := by
    have hq : (1 : ℚ) / (1 / 2) / POINT_INTERVAL = 50000 / 9 := by
      unfold POINT_INTERVAL
      norm_num
    have ht : pyTrunc (50000 / 9) = 5555 := by
      unfold pyTrunc
      rw [if_pos (by norm_num)]
      norm_num
    rw [hq]
    unfold npLen
    rw [ht]
    decide
  have hsw : ∀ a b : ℚ, abs (b - a) = 1 →
      linear_sweep a b (1 / 2) = some ⟨npLinspace a b 5555, npArangeTimes 5555⟩ := by
    intro a b hab
    unfold linear_sweep
    rw [hab, hnp]
    rfl
  have h1 := hsw (-(1 : ℚ) / 2) (1 / 2) (by norm_num)
  have h2 := hsw (1 / 2) (-(1 : ℚ) / 2) (by norm_num)
  unfold cyclic_voltammetry
  rw [h1, h2]
  have hne : ¬ ((1 / 2 : ℚ) = -(1 : ℚ) / 2) := by norm_num
  simp only [hne, if_false, Option.bind_eq_bind, Option.some_bind, Option.map_some']
  refine ⟨_, rfl, ?_, by decide⟩
  rw [show midCycleIdx 2 = [2] from by decide]
  simp only [npLinspace_length, List.map_cons, List.map_nil, List.flatten_cons,
    List.flatten_nil, List.append_nil]
  rw [List.toFinset_append, List.toFinset_append]
  rw [List.toFinset_replicate_of_ne_zero (by norm_num),
    List.toFinset_replicate_of_ne_zero (by norm_num),
    List.toFinset_replicate_of_ne_zero (by norm_num)]
  decide

/-- Claim C8 (amended): the closing leg toward `end` is included iff
`end ≠ vertex2`, but it reuses the last primary cycle's label `cycles`:
at the claimed parameters the label set is exactly {1, 2} — two distinct
values, no third — and in general the `end ≠ vertex2` waveform is
exactly the `end = vertex2` waveform extended by the closing sweep,
whose label block is `replicate … cycles`. -/
theorem C8_amended_closing_leg :
    (∃ w, cyclic_voltammetry (-(1 : ℚ) / 2) (1 / 2) (-(1 : ℚ) / 2) (1 / 2) (1 / 2) 2 =
        some w ∧ w.cycle.toFinset = ({1, 2} : Finset Int)) ∧
    (∀ (s v1 v2 e sr : ℚ) (cycles : Int) (w wx : CyclicPotenOutput) (sx : PotenOutput),
        e ≠ v2 →
        cyclic_voltammetry s v1 v2 e sr cycles = some w →
        cyclic_voltammetry s v1 v2 v2 sr cycles = some wx →
        linear_sweep v2 e sr = some sx →
        w.applied_potential.length =
          wx.applied_potential.length + sx.applied_potential.length ∧
        w.cycle = wx.cycle ++ List.replicate sx.applied_potential.length cycles) := by
  constructor
  · obtain ⟨w, hw, hts, _⟩ := C8_counterexample
    exact ⟨w, hw, hts⟩
  · intro s v1 v2 e sr cycles w wx sx hne hw hwx hsx
    unfold cyclic_voltammetry at hw hwx
    simp only [hne, if_false, Option.bind_eq_bind, Option.bind_eq_some,
      Option.map_eq_some', Option.pure_def, Option.some.injEq] at hw
    obtain ⟨s1, hs1, s2, hs2, up, hup, down, hdown, extra, ⟨sx', hsx', hex⟩, hw⟩ := hw
    simp only [eq_self_iff_true, if_true, Option.bind_eq_bind, Option.bind_eq_some,
      Option.some_bind, Option.pure_def, Option.some.injEq] at hwx
    obtain ⟨s1', hs1', s2', hs2', up', hup', down', hdown', hwx⟩ := hwx
    rw [hs1] at hs1'
    rw [hs2] at hs2'
    rw [hup] at hup'
    rw [hdown] at hdown'
    rw [hsx] at hsx'
    cases hs1'
    cases hs2'
    cases hup'
    cases hdown'
    cases hsx'
    subst hw
    subst hwx
    subst hex
    refine ⟨?_, ?_⟩
    · simp only [List.length_append, List.append_nil, List.flatten_nil]
    · simp

/-- Witness for the amended C8 general part: a one-cycle sweep between 0
and two sample periods with `end ≠ vertex2`, compared against the same
sweep closed at `vertex2`. -/
theorem C8_amended_closing_leg_witness :
    ∃ w wx sx,
      cyclic_voltammetry 0 (POINT_INTERVAL * 2) 0 (POINT_INTERVAL * 2) 1 1 = some w ∧
      cyclic_voltammetry 0 (POINT_INTERVAL * 2) 0 0 1 1 = some wx ∧
      linear_sweep 0 (POINT_INTERVAL * 2) 1 = some sx ∧
      w.applied_potential.length =
        wx.applied_potential.length + sx.applied_potential.length := by
  have hq : (POINT_INTERVAL * 2) / POINT_INTERVAL = 2 := by
    unfold POINT_INTERVAL
    norm_num
  have hnp : ∀ q : ℚ, q = 2 → npLen q = some 2 := by
    intro q hq2
    subst hq2
    have ht : pyTrunc 2 = 2 := by
      unfold pyTrunc
      rw [if_pos (by norm_num)]
      norm_num
    unfold npLen
    rw [ht]
    decide
  have hls : ∀ a b : ℚ, abs (b - a) = POINT_INTERVAL * 2 →
      linear_sweep a b 1 = some ⟨npLinspace a b 2, npArangeTimes 2⟩ := by
    intro a b hab
    unfold linear_sweep
    rw [hnp _ (by rw [hab]; unfold POINT_INTERVAL; norm_num)]
    rfl
  have habs1 : abs ((POINT_INTERVAL * 2) - 0) = POINT_INTERVAL * 2 := by
    unfold POINT_INTERVAL
    norm_num
  have habs2 : abs (0 - POINT_INTERVAL * 2) = POINT_INTERVAL * 2 := by
    unfold POINT_INTERVAL
    norm_num
  have hsx := hls 0 (POINT_INTERVAL * 2) habs1
  obtain ⟨w, hw⟩ : ∃ w,
      cyclic_voltammetry 0 (POINT_INTERVAL * 2) 0 (POINT_INTERVAL * 2) 1 1 = some w := by
    unfold cyclic_voltammetry
    rw [hls 0 (POINT_INTERVAL * 2) habs1, hls (POINT_INTERVAL * 2) 0 habs2]
    have hne2 : ¬ ((POINT_INTERVAL * 2 : ℚ) = 0) := by
      unfold POINT_INTERVAL
      norm_num
    simp only [hne2, if_false, Option.bind_eq_bind, Option.some_bind, Option.map_some']
    exact ⟨_, rfl⟩
  obtain ⟨wx, hwx⟩ : ∃ wx,
      cyclic_voltammetry 0 (POINT_INTERVAL * 2) 0 0 1 1 = some wx := by
    unfold cyclic_voltammetry
    rw [hls 0 (POINT_INTERVAL * 2) habs1, hls (POINT_INTERVAL * 2) 0 habs2]
    simp only [eq_self_iff_true, if_true, Option.bind_eq_bind, Option.some_bind]
    exact ⟨_, rfl⟩
  refine ⟨w, wx, _, hw, hwx, hsx, ?_⟩
  exact (C8_amended_closing_leg.2 0 (POINT_INTERVAL * 2) 0 (POINT_INTERVAL * 2) 1 1 w wx _
    (by unfold POINT_INTERVAL; norm_num) hw hwx hsx).1

end PyBEEP
